import Mathlib

/-!
Verification development for the `.env` parser of `nestjs-env-getter`
(`src/env-getter/env-parser.utils.ts`).  JavaScript strings are embedded as
`List Char`; `process.env`, the filesystem and thrown exceptions are made
explicit (`Rec`, `FS`, `Except`).  Every definition mirrors the corresponding
source function; console warnings (the `quiet` flag) are I/O only and carry no
information into any result, so they do not appear in the model.
-/

set_option maxHeartbeats 1000000

namespace EnvParser

/-- Characters of a JavaScript string, in order. -/
abbrev Str := List Char

/-- The single-quote character. -/
def sq : Char := Char.ofNat 39

/-- The backtick character. -/
def btick : Char := Char.ofNat 96

/-- Whitespace removed by JavaScript `trim` / `trimStart` / `trimEnd`
(ASCII whitespace plus NBSP and BOM; exotic Unicode space separators are not
used anywhere in this development). -/
def isJsWs (c : Char) : Bool :=
  c = ' ' || c = '\t' || c = '\n' || c = '\r' ||
  c = Char.ofNat 11 || c = Char.ofNat 12 || c = Char.ofNat 160 || c = Char.ofNat 65279

/-- JavaScript `String.prototype.trimStart`. -/
def jsTrimStart (s : Str) : Str := s.dropWhile isJsWs

/-- JavaScript `String.prototype.trimEnd`. -/
def jsTrimEnd (s : Str) : Str := (s.reverse.dropWhile isJsWs).reverse

/-- JavaScript `String.prototype.trim`. -/
def jsTrim (s : Str) : Str := jsTrimEnd (jsTrimStart s)

/-- Index of the first occurrence of character `c`, as in `indexOf` (with
`none` for the JavaScript result `-1`). -/
def idxOf (c : Char) : Str → Option Nat
  | [] => none
  | d :: rest => if d = c then some 0 else (idxOf c rest).map (· + 1)

/-- Index of the first occurrence of the pattern `pat`, as in
`String.prototype.indexOf` for a string argument. -/
def strFind (pat : Str) : Str → Option Nat
  | [] => if pat.isPrefixOf ([] : Str) then some 0 else none
  | c :: rest => if pat.isPrefixOf (c :: rest) then some 0 else (strFind pat rest).map (· + 1)

/-- Decimal digits of `n` (auxiliary, fueled). -/
def natStrAux : Nat → Nat → Str
  | 0, _ => []
  | fuel + 1, n =>
    if n < 10 then [Char.ofNat (48 + n)]
    else natStrAux fuel (n / 10) ++ [Char.ofNat (48 + n % 10)]

/-- Decimal rendering of a natural number, as interpolated into template
literals by JavaScript. -/
def natStr (n : Nat) : Str := natStrAux (n + 1) n

/-- Error kinds of `EnvParseError.type` (src/env-getter/types). -/
inductive EnvErrorType where
  | UNTERMINATED_QUOTE
  | INVALID_KEY
  | MALFORMED_LINE
  | CIRCULAR_REFERENCE
  | FILE_READ_ERROR
deriving DecidableEq, Repr

/-- The `EnvParseError` record. -/
structure EnvParseError where
  lineNumber : Nat
  rawContent : Str
  message : Str
  type : EnvErrorType
deriving DecidableEq, Repr

/-- The `createError` helper. -/
def createError (lineNumber : Nat) (rawContent : Str) (message : Str)
    (type : EnvErrorType) : EnvParseError :=
  { lineNumber := lineNumber, rawContent := rawContent, message := message, type := type }

/-- Message of a `MALFORMED_LINE` error. -/
def msgMissingEq (n : Nat) : Str :=
  ("Line ").data ++ natStr n ++ (": Missing ").data ++ sq :: '=' :: sq ::
    (" in assignment").data

/-- Message of an `INVALID_KEY` error. -/
def msgInvalidKey (n : Nat) (key : Str) : Str :=
  ("Line ").data ++ natStr n ++ (": Invalid key ").data ++ sq :: key ++ sq ::
    (". Keys must start with a letter or underscore and contain only alphanumeric characters and underscores.").data

/-- Message of an `UNTERMINATED_QUOTE` error. -/
def msgUnterminated (quoteChar : Char) (startLine : Nat) : Str :=
  ("Unterminated ").data ++
    (if quoteChar = '"' then ("double").data else ("single").data) ++
    ("-quoted string starting at line ").data ++ natStr startLine

/-- The `rawContent` recorded for an unterminated multiline buffer. -/
def rawStartedAt (n : Nat) : Str := ("Started at line ").data ++ natStr n

/-- Test of `KEY_REGEX` (`^[a-zA-Z_][a-zA-Z0-9_]*$`). -/
def keyValid : Str → Bool
  | [] => false
  | c :: rest => (c.isAlpha || c = '_') && rest.all (fun d => d.isAlphanum || d = '_')

/-- First character class of the interpolation identifier (`[a-zA-Z_]`). -/
def isIdentStart (c : Char) : Bool := c.isAlpha || c = '_'

/-- Later character class of the interpolation identifier (`[a-zA-Z0-9_]`). -/
def isIdentChar (c : Char) : Bool := c.isAlphanum || c = '_'

/-- The `processEscapes` function: decodes escape sequences of double-quoted
values, keeping unknown escapes as-is. -/
def processEscapes : Str → Str
  | '\\' :: c :: rest =>
    if c = 'n' then '\n' :: processEscapes rest
    else if c = 't' then '\t' :: processEscapes rest
    else if c = 'r' then '\r' :: processEscapes rest
    else if c = '\\' then '\\' :: processEscapes rest
    else if c = '"' then '"' :: processEscapes rest
    else '\\' :: processEscapes (c :: rest)
  | c :: rest => c :: processEscapes rest
  | [] => []

/-- Scan of a double-quoted value for its closing quote on the opening line:
escaped pairs are kept verbatim, and the `Bool` reports whether an unescaped
closing `"` was found. -/
def scanDQ : Str → Str × Bool
  | [] => ([], false)
  | '\\' :: c :: rest =>
    let (v, b) := scanDQ rest
    ('\\' :: c :: v, b)
  | '"' :: _ => ([], true)
  | c :: rest =>
    let (v, b) := scanDQ rest
    (c :: v, b)

/-- The pending multiline buffer of the assignment driver. -/
structure MultilineBuffer where
  key : Str
  value : Str
  quoteChar : Char
  startLine : Nat
deriving DecidableEq, Repr

/-- Result record of `parseLine`. -/
structure ParseLineResult where
  key : Option Str := none
  value : Option Str := none
  isComplete : Bool
  buffer : Option MultilineBuffer
  error : Option EnvParseError := none
deriving DecidableEq, Repr

/-- The `parseLine` function: classifies one physical line (or a pending
multiline continuation) and decodes its value. -/
def parseLine (line : Str) (lineNumber : Nat) (buffer : Option MultilineBuffer) :
    ParseLineResult :=
  match buffer with
  | some buf =>
    match idxOf buf.quoteChar line with
    | some i =>
      { key := some buf.key, value := some (buf.value ++ '\n' :: line.take i),
        isComplete := true, buffer := none }
    | none =>
      { isComplete := false, buffer := some { buf with value := buf.value ++ '\n' :: line } }
  | none =>
    let trimmedLine := jsTrimStart line
    if trimmedLine.isEmpty || (['#'] : Str).isPrefixOf trimmedLine then
      { isComplete := true, buffer := none }
    else
      let workingLine :=
        if ("export ").data.isPrefixOf trimmedLine then jsTrimStart (trimmedLine.drop 7)
        else trimmedLine
      match idxOf '=' workingLine with
      | none =>
        { isComplete := true, buffer := none,
          error := some (createError lineNumber line (msgMissingEq lineNumber) .MALFORMED_LINE) }
      | some equalsIndex =>
        let key := jsTrim (workingLine.take equalsIndex)
        if !keyValid key then
          { isComplete := true, buffer := none,
            error := some (createError lineNumber line (msgInvalidKey lineNumber key) .INVALID_KEY) }
        else
          let rawValue := workingLine.drop (equalsIndex + 1)
          let firstChar := rawValue.headD (Char.ofNat 0)
          if firstChar = sq then
            match idxOf sq rawValue.tail with
            | none =>
              { isComplete := false,
                buffer := some { key := key, value := rawValue.tail, quoteChar := sq, startLine := lineNumber } }
            | some closingIndex =>
              { key := some key, value := some (rawValue.tail.take closingIndex),
                isComplete := true, buffer := none }
          else if firstChar = '"' then
            let (v, foundClosing) := scanDQ rawValue.tail
            if foundClosing then
              { key := some key, value := some (processEscapes v), isComplete := true, buffer := none }
            else
              { isComplete := false,
                buffer := some { key := key, value := v, quoteChar := '"', startLine := lineNumber } }
          else
            let trimmed := jsTrim rawValue
            let value :=
              match idxOf '#' trimmed with
              | some commentIndex => jsTrimEnd (trimmed.take commentIndex)
              | none => trimmed
            { key := some key, value := some value, isComplete := true, buffer := none }

/-- Association list with the observable behavior of a JavaScript plain object
used as a string map (`Record<string, string>`): insertion order is the order
of `Object.entries`, and setting an existing key updates it in place. -/
abbrev Rec := List (Str × Str)

/-- Lookup (`obj[k]`, with `none` for an absent key). -/
def recLookup (r : Rec) (k : Str) : Option Str :=
  (r.find? (fun p => p.1 == k)).map Prod.snd

/-- Key-presence test (`k in obj`). -/
def recHas (r : Rec) (k : Str) : Bool := r.any (fun p => p.1 == k)

/-- Assignment `obj[k] = v`: update in place when present, append otherwise. -/
def recSet (r : Rec) (k : Str) (v : Str) : Rec :=
  if recHas r k then r.map (fun p => if p.1 == k then (k, v) else p)
  else r ++ [(k, v)]

/-- `Object.assign(target, upd)`: every entry of `upd` is assigned in order. -/
def recAssign (target upd : Rec) : Rec :=
  upd.foldl (fun a p => recSet a p.1 p.2) target

/-- Last-binding lookup: the value the key holds after all entries of `r` have
been assigned in order into a fresh object. -/
def lastLookup (r : Rec) (k : Str) : Option Str := recLookup r.reverse k

/-- The external-environment snapshot (`Record<string, string | undefined>`). -/
abbrev SysEnv := List (Str × Option Str)

/-- Lookup used by the resolver: `name in systemEnv && systemEnv[name] !== undefined`. -/
def sysLookup (e : SysEnv) (k : Str) : Option Str :=
  match e.find? (fun p => p.1 == k) with
  | some (_, some v) => some v
  | _ => none

/-- The `detectCircularReference` helper: reports the full chain when `varName`
is already on the resolution stack. -/
def joinArrow : List Str → Str
  | [] => []
  | [s] => s
  | s :: rest => s ++ (" -> ").data ++ joinArrow rest

/-- Circular-reference check of the resolver (the stack keeps insertion
order, as a JavaScript `Set` does). -/
def detectCircularReference (varName : Str) (resolutionStack : List Str) : Option Str :=
  if resolutionStack.contains varName then
    some (("Circular reference detected: ").data ++ joinArrow (resolutionStack ++ [varName]))
  else none

/-- The complete text of an interpolation token `${name}`. -/
def interpToken (name : Str) : Str := '$' :: '{' :: (name ++ ['}'])

/-- Attempt of `INTERPOLATION_REGEX` (`\$\{([a-zA-Z_][a-zA-Z0-9_]*)\}`) at the
start of the string: the captured identifier when the string begins with a
complete token. -/
def headTokenName : Str → Option Str
  | c0 :: c1 :: c :: r =>
    if c0 = '$' && c1 = '{' && isIdentStart c then
      match r.dropWhile isIdentChar with
      | '}' :: _ => some (c :: r.takeWhile isIdentChar)
      | _ => none
    else none
  | _ => none

/-- First match of the interpolation pattern anywhere in the string: the
captured identifier and the remainder after the match (the regex engine
advances one position after a failed attempt, exactly this scan). -/
def findInterp : Str → Option (Str × Str)
  | [] => none
  | c0 :: r =>
    match headTokenName (c0 :: r) with
    | some name => some (name, (c0 :: r).drop (name.length + 3))
    | none => findInterp r

/-- Replacement-pattern substitution of `String.prototype.replace` for a string
search value (`$$`, `$&`, the backtick pattern and the quote pattern; a `$`
followed by anything else is literal). -/
def getSubstitution (matched before after : Str) : Str → Str
  | [] => []
  | c :: rest =>
    if c = '$' then
      match rest with
      | [] => ['$']
      | d :: rest2 =>
        if d = '$' then '$' :: getSubstitution matched before after rest2
        else if d = '&' then matched ++ getSubstitution matched before after rest2
        else if d = btick then before ++ getSubstitution matched before after rest2
        else if d = sq then after ++ getSubstitution matched before after rest2
        else '$' :: getSubstitution matched before after (d :: rest2)
    else c :: getSubstitution matched before after rest

/-- JavaScript `s.replace(pat, repl)` for string arguments: replaces the first
occurrence of `pat`, applying replacement-pattern substitution to `repl`. -/
def jsReplaceFirst (s pat repl : Str) : Str :=
  match strFind pat s with
  | none => s
  | some i =>
    s.take i ++ getSubstitution pat (s.take i) (s.drop (i + pat.length)) repl ++
      s.drop (i + pat.length)

/-- Result record of `expandVariables`. -/
structure ExpandOut where
  result : Str
  circularError : Option Str := none
deriving DecidableEq, Repr

/-- Number of entries of `vars` whose key is not yet on the resolution stack;
the recursion depth of the resolver is bounded by this quantity. -/
def countFree (vars : Rec) (stack : List Str) : Nat :=
  (vars.filter (fun p => !stack.contains p.1)).length

/-- One scanning pass of `expandVariables` over a value (`regex.exec` against
the original `value`, with `result` rewritten by `replace`).  `rest` is the
part of `value` the regex has not yet scanned; after a match of `${name}` the
scan continues `name.length + 3` characters further on.  `recurse` performs
the recursive expansion of a referenced local variable with the enlarged
resolution stack.  `gas` is kept at least `rest.length` by every caller
(each step consumes one gas and at least one character), so the middle branch
never fires on reachable states and the function is structurally recursive,
hence computable by the kernel. -/
def expandScan (vars : Rec) (sysEnv : SysEnv) (recurse : Str → List Str → Option ExpandOut)
    (stack : List Str) (value : Str) : Nat → Str → Str → Option ExpandOut
  | _, [], res => some { result := res }
  | 0, _ :: _, res => some { result := res }
  | gas + 1, c0 :: r, res =>
    match headTokenName (c0 :: r) with
    | none => expandScan vars sysEnv recurse stack value gas r res
    | some name =>
      let after := (c0 :: r).drop (name.length + 3)
      match detectCircularReference name stack with
      | some msg => some { result := value, circularError := some msg }
      | none =>
        match recLookup vars name with
        | some v =>
          match recurse v (stack ++ [name]) with
          | none => none
          | some expanded =>
            match expanded.circularError with
            | some _ => some expanded
            | none =>
              expandScan vars sysEnv recurse stack value gas after
                (jsReplaceFirst res (interpToken name) expanded.result)
        | none =>
          match sysLookup sysEnv name with
          | some v =>
            expandScan vars sysEnv recurse stack value gas after
              (jsReplaceFirst res (interpToken name) v)
          | none =>
            expandScan vars sysEnv recurse stack value gas after
              (jsReplaceFirst res (interpToken name) [])

/-- The recursion of `expandVariables` through locally defined variables,
fueled by the reference depth: fuel is consumed exactly at each
variable-to-variable recursion, and `expandVarsF_isSome` below shows that any
fuel above `countFree vars stack` suffices, which is how the JavaScript
recursion terminates. -/
def expandVarsF (vars : Rec) (sysEnv : SysEnv) : Nat → Str → List Str → Option ExpandOut
  | 0, _, _ => none
  | fuel + 1, value, stack =>
    expandScan vars sysEnv (fun v ns => expandVarsF vars sysEnv fuel v ns) stack value
      value.length value value

/-- The `expandVariables` function.  The fuel `countFree vars stack + 1` is
sufficient (`expandVarsF_isSome` below), so the default never fires and the
function is total, exactly as the JavaScript recursion terminates. -/
def expandVariables (value : Str) (vars : Rec) (sysEnv : SysEnv)
    (stack : List Str) : ExpandOut :=
  (expandVarsF vars sysEnv (countFree vars stack + 1) value stack).getD { result := value }

/-- The `EnvParseOptions` record (`quiet` only silences console warnings and
is omitted; `systemEnv` defaults to the ambient `process.env`, which callers
of the model pass explicitly). -/
structure EnvParseOptions where
  override : Bool := false
  accumulate : Bool := false
  systemEnv : SysEnv := []
deriving DecidableEq, Repr

/-- The `EnvParseResult` record (`vars` embeds the `variables` field, whose
name is reserved in Lean 4). -/
structure EnvParseResult where
  vars : Rec
  errors : List EnvParseError
  success : Bool
deriving DecidableEq, Repr

/-- Store update after one line: a completed assignment with a key is written
(`variables[result.key] = result.value ?? ""`). -/
def driveStep (vars : Rec) (r : ParseLineResult) : Rec :=
  if r.isComplete && r.key.isSome then recSet vars (r.key.getD []) (r.value.getD []) else vars

/-- The line loop of `parseEnvString`: feeds each line to `parseLine`,
collects (or in fail-fast mode throws) errors, stores completed assignments,
and threads the multiline buffer. -/
def driveLines (accumulate : Bool) :
    List Str → Nat → Rec → List EnvParseError → Option MultilineBuffer →
      Except Str (Rec × List EnvParseError × Option MultilineBuffer)
  | [], _, vars, errs, buf => .ok (vars, errs, buf)
  | l :: rest, n, vars, errs, buf =>
    let r := parseLine l n buf
    match r.error with
    | some e =>
      if accumulate then driveLines accumulate rest (n + 1) (driveStep vars r) (errs ++ [e]) r.buffer
      else .error e.message
    | none => driveLines accumulate rest (n + 1) (driveStep vars r) errs r.buffer

/-- The interpolation pass of `parseEnvString`: expands each raw entry; a
circular reference keeps the raw value and records (or throws) the error. -/
def expandPass (accumulate : Bool) (vars : Rec) (sysEnv : SysEnv) :
    Rec → Rec → List EnvParseError → Except Str (Rec × List EnvParseError)
  | [], expanded, errs => .ok (expanded, errs)
  | (k, v) :: entries, expanded, errs =>
    let out := expandVariables v vars sysEnv [k]
    match out.circularError with
    | some msg =>
      let e := createError 0 k msg .CIRCULAR_REFERENCE
      if accumulate then expandPass accumulate vars sysEnv entries (recSet expanded k v) (errs ++ [e])
      else .error e.message
    | none => expandPass accumulate vars sysEnv entries (recSet expanded k out.result) errs

/-- Replacement of every `\r\n` pair by `\n` (first normalization step). -/
def normCRLF : Str → Str
  | [] => []
  | [c] => [c]
  | c :: d :: rest =>
    if c = '\r' && d = '\n' then '\n' :: normCRLF rest
    else c :: normCRLF (d :: rest)

/-- Line-ending normalization of `parseEnvString`. -/
def normalizeNewlines (s : Str) : Str :=
  (normCRLF s).map (fun c => if c = '\r' then '\n' else c)

/-- `content.split("\n")` (always at least one piece). -/
def splitLines : Str → List Str
  | [] => [[]]
  | c :: rest =>
    if c = '\n' then [] :: splitLines rest
    else
      match splitLines rest with
      | l :: ls => (c :: l) :: ls
      | [] => [[c]]

/-- The `parseEnvString` function.  `Except.error msg` models a thrown
`Error(msg)`. -/
def parseEnvString (content : Str) (options : EnvParseOptions := {}) :
    Except Str EnvParseResult := do
  let lines := splitLines (normalizeNewlines content)
  let (rawVars, errs0, buf) ← driveLines options.accumulate lines 1 [] [] none
  let errs1 ←
    match buf with
    | some b =>
      let e := createError b.startLine (rawStartedAt b.startLine)
        (msgUnterminated b.quoteChar b.startLine) .UNTERMINATED_QUOTE
      if options.accumulate then pure (errs0 ++ [e]) else Except.error e.message
    | none => pure errs0
  let (expandedVariables, errs2) ← expandPass options.accumulate rawVars options.systemEnv rawVars [] errs1
  pure { vars := expandedVariables, errors := errs2, success := errs2.isEmpty }

/-- Snapshot of the filesystem: path contents; `existsSync` is key presence. -/
abbrev FS := List (Str × Str)

/-- Content of a path, when the file exists. -/
def fsLookup (fs : FS) (path : Str) : Option Str :=
  (fs.find? (fun p => p.1 == path)).map Prod.snd

/-- The `parseEnvFile` function.  With the filesystem a pure snapshot,
`readFileSync` cannot fail, so the catch branch is reached exactly when
`parseEnvString` throws; messages not starting with `Line ` are wrapped as
`FILE_READ_ERROR`, as in the source. -/
def parseEnvFile (fs : FS) (filePath : Str) (options : EnvParseOptions := {}) :
    Except Str EnvParseResult :=
  match fsLookup fs filePath with
  | none =>
    let e := createError 0 filePath (("File not found: ").data ++ filePath) .FILE_READ_ERROR
    if options.accumulate then .ok { vars := [], errors := [e], success := false }
    else .error e.message
  | some content =>
    match parseEnvString content options with
    | .ok r => .ok r
    | .error msg =>
      if ("Line ").data.isPrefixOf msg then .error msg
      else
        let e := createError 0 filePath
          (("Error reading file ").data ++ filePath ++ (": ").data ++ msg) .FILE_READ_ERROR
        if options.accumulate then .ok { vars := [], errors := [e], success := false }
        else .error e.message

/-- The source loop of `parseEnvFiles`: missing sources are skipped, existing
ones are parsed in accumulate mode, maps are merged left to right and errors
concatenated. -/
def filesLoop (fs : FS) (options : EnvParseOptions) :
    List Str → Rec → List EnvParseError → Except Str (Rec × List EnvParseError)
  | [], vars, errs => .ok (vars, errs)
  | p :: rest, vars, errs =>
    if (fsLookup fs p).isNone then filesLoop fs options rest vars errs
    else
      match parseEnvFile fs p { options with accumulate := true } with
      | .error m => .error m
      | .ok r => filesLoop fs options rest (recAssign vars r.vars) (errs ++ r.errors)

/-- The `parseEnvFiles` function. -/
def parseEnvFiles (fs : FS) (filePaths : List Str) (options : EnvParseOptions := {}) :
    Except Str EnvParseResult := do
  let (allVariables, allErrors) ← filesLoop fs options filePaths [] []
  match allErrors with
  | [] => pure { vars := allVariables, errors := [], success := true }
  | e :: rest =>
    if options.accumulate then
      pure { vars := allVariables, errors := e :: rest, success := false }
    else Except.error e.message

/-- The store-writing loop shared by `loadEnvFile` and `loadEnvFiles`: each
parsed entry is written into the store unless the key is already present and
`override` is unset. -/
def loadStore (env : Rec) (override : Bool) (entries : Rec) : Rec :=
  entries.foldl (fun acc p => if override || !recHas acc p.1 then recSet acc p.1 p.2 else acc) env

/-- The `loadEnvFile` function, with `process.env` an explicit store. -/
def loadEnvFile (fs : FS) (env : Rec) (filePath : Str) (options : EnvParseOptions := {}) :
    Except Str Rec :=
  if (fsLookup fs filePath).isNone then .ok env
  else
    match parseEnvFile fs filePath options with
    | .error m => .error m
    | .ok result => .ok (loadStore env options.override result.vars)

/-- The `loadEnvFiles` function. -/
def loadEnvFiles (fs : FS) (env : Rec) (filePaths : List Str) (options : EnvParseOptions := {}) :
    Except Str Rec :=
  match parseEnvFiles fs filePaths options with
  | .error m => .error m
  | .ok result => .ok (loadStore env options.override result.vars)

/-- Auxiliary scan of `wfTokens`, with `gas` kept at least the length of the
remaining string. -/
def wfTokensGas : Nat → Str → Bool
  | _, [] => true
  | 0, _ :: _ => true
  | gas + 1, c0 :: r =>
    match headTokenName (c0 :: r) with
    | some name => wfTokensGas gas ((c0 :: r).drop (name.length + 3))
    | none => if c0 = '$' then false else wfTokensGas gas r

/-- Hygiene predicate: every `$` of the string begins a well-formed
`${IDENTIFIER}` token. -/
def wfTokens (s : Str) : Bool := wfTokensGas s.length s

/-- Errors contributed by a multiline buffer still open at end of input. -/
def untermErrs : Option MultilineBuffer → List EnvParseError
  | none => []
  | some b => [createError b.startLine (rawStartedAt b.startLine)
      (msgUnterminated b.quoteChar b.startLine) .UNTERMINATED_QUOTE]

/-- Plain unquoted value: no JavaScript whitespace, none of the characters
that the decoder or the resolver treats specially, and no line breaks. -/
def plainValue (w : Str) : Prop :=
  (∀ c ∈ w, isJsWs c = false) ∧ '#' ∉ w ∧ '$' ∉ w ∧ sq ∉ w ∧ '"' ∉ w ∧ '\n' ∉ w ∧ '\r' ∉ w

deriving instance DecidableEq for Except

theorem detectCircular_eq_none {varName : Str} {stack : List Str}
    (h : detectCircularReference varName stack = none) : stack.contains varName = false := by
  by_contra hc
  simp only [detectCircularReference] at h
  rw [if_pos (by revert hc; cases stack.contains varName <;> simp)] at h
  exact Option.some_ne_none _ h

theorem countFree_eq_countP (vars : Rec) (stack : List Str) :
    countFree vars stack = vars.countP (fun p => !stack.contains p.1) := by
  simp [countFree, List.countP_eq_length_filter]

theorem countFree_append_le (vars : Rec) (stack : List Str) (name : Str) :
    countFree vars (stack ++ [name]) ≤ countFree vars stack := by
  rw [countFree_eq_countP, countFree_eq_countP]
  apply List.countP_mono_left
  intro x _ hx
  simp at hx ⊢
  exact hx.1

theorem countFree_append_lt (vars : Rec) (stack : List Str) (name : Str)
    (hmem : recLookup vars name ≠ none) (hstack : stack.contains name = false) :
    countFree vars (stack ++ [name]) < countFree vars stack := by
  rw [countFree_eq_countP, countFree_eq_countP]
  obtain ⟨x, hfind⟩ : ∃ x, vars.find? (fun p => p.1 == name) = some x := by
    cases h : vars.find? (fun p => p.1 == name) with
    | none => simp [recLookup, h] at hmem
    | some x => exact ⟨x, rfl⟩
  have hx1 : x.1 = name := by
    have := List.find?_some hfind
    simpa using this
  have hxmem : x ∈ vars := List.mem_of_find?_eq_some hfind
  obtain ⟨s, t, rfl⟩ := List.append_of_mem hxmem
  rw [List.countP_append, List.countP_append]
  have hnotin : x.1 ∉ stack := by
    rw [hx1]
    intro hmem2
    have hc : stack.contains name = true := by simp [List.contains, hmem2]
    rw [hstack] at hc
    exact Bool.false_ne_true hc
  have e1 : List.countP (fun p => !(stack ++ [name]).contains p.1) (x :: t) =
      List.countP (fun p => !(stack ++ [name]).contains p.1) t := by
    apply List.countP_cons_of_neg
    simp [hx1]
  have e2 : List.countP (fun p => !stack.contains p.1) (x :: t) =
      List.countP (fun p => !stack.contains p.1) t + 1 := by
    apply List.countP_cons_of_pos
    simp
    exact hnotin
  have h1 : List.countP (fun p => !(stack ++ [name]).contains p.1) s ≤
      List.countP (fun p => !stack.contains p.1) s := by
    apply List.countP_mono_left
    intro y _ hy
    simp at hy ⊢
    exact hy.1
  have h2 : List.countP (fun p => !(stack ++ [name]).contains p.1) t ≤
      List.countP (fun p => !stack.contains p.1) t := by
    apply List.countP_mono_left
    intro y _ hy
    simp at hy ⊢
    exact hy.1
  rw [e1, e2]
  omega

theorem expandScan_isSome (vars : Rec) (sysEnv : SysEnv)
    (recurse : Str → List Str → Option ExpandOut) (stack : List Str) (value : Str)
    (hrec : ∀ v name, recLookup vars name = some v →
      detectCircularReference name stack = none →
      (recurse v (stack ++ [name])).isSome = true) :
    ∀ (gas : Nat) (rest res : Str),
      (expandScan vars sysEnv recurse stack value gas rest res).isSome = true := by
  intro gas
  induction gas with
  | zero => intro rest res; cases rest <;> simp [expandScan]
  | succ gas ih =>
    intro rest res
    cases rest with
    | nil => simp [expandScan]
    | cons c0 r =>
      simp only [expandScan]
      cases htok : headTokenName (c0 :: r) with
      | none =>
        simp only [htok]
        exact ih r res
      | some name =>
        simp only [htok]
        cases hcirc : detectCircularReference name stack with
        | some msg => simp
        | none =>
          cases hlook : recLookup vars name with
          | some v =>
            have h := hrec v name hlook hcirc
            cases hx : recurse v (stack ++ [name]) with
            | none => rw [hx] at h; simp at h
            | some expanded =>
              cases hce : expanded.circularError with
              | some msg2 => simp [hx, hce]
              | none =>
                simp only [hx, hce]
                exact ih _ _
          | none =>
            cases hsys : sysLookup sysEnv name with
            | some v =>
              simp only [hlook, hsys]
              exact ih _ _
            | none =>
              simp only [hlook, hsys]
              exact ih _ _

theorem expandVarsF_isSome (vars : Rec) (sysEnv : SysEnv) :
    ∀ (fuel : Nat) (stack : List Str) (value : Str), countFree vars stack < fuel →
      (expandVarsF vars sysEnv fuel value stack).isSome = true := by
  intro fuel
  induction fuel with
  | zero => intro stack value h; exact absurd h (Nat.not_lt_zero _)
  | succ fuel ih =>
    intro stack value h
    simp only [expandVarsF]
    apply expandScan_isSome
    intro v name hlook hcirc
    apply ih
    have hc : stack.contains name = false := detectCircular_eq_none hcirc
    have := countFree_append_lt vars stack name (by rw [hlook]; exact Option.some_ne_none _) hc
    omega

theorem expandVariables_some (value : Str) (vars : Rec) (sysEnv : SysEnv) (stack : List Str) :
    expandVarsF vars sysEnv (countFree vars stack + 1) value stack =
      some (expandVariables value vars sysEnv stack) := by
  have h : (expandVarsF vars sysEnv (countFree vars stack + 1) value stack).isSome = true :=
    expandVarsF_isSome vars sysEnv _ stack value (Nat.lt_succ_self _)
  unfold expandVariables
  cases hx : expandVarsF vars sysEnv (countFree vars stack + 1) value stack with
  | none => rw [hx] at h; simp at h
  | some out => simp

theorem driveLines_acc_ok (lines : List Str) :
    ∀ (n : Nat) (vars : Rec) (errs : List EnvParseError) (buf : Option MultilineBuffer),
      ∃ out, driveLines true lines n vars errs buf = .ok out := by
  induction lines with
  | nil => intro n vars errs buf; exact ⟨(vars, errs, buf), rfl⟩
  | cons l rest ih =>
    intro n vars errs buf
    simp only [driveLines]
    cases hE : (parseLine l n buf).error with
    | some e => simpa [hE] using ih (n + 1) _ _ _
    | none => simpa [hE] using ih (n + 1) _ _ _

theorem driveLines_errs (lines : List Str) :
    ∀ (n : Nat) (vars : Rec) (errs : List EnvParseError) (buf : Option MultilineBuffer),
      driveLines true lines n vars errs buf =
        (driveLines true lines n vars [] buf).map (fun o => (o.1, errs ++ o.2.1, o.2.2)) := by
  induction lines with
  | nil => intro n vars errs buf; simp [driveLines, Except.map]
  | cons l rest ih =>
    intro n vars errs buf
    simp only [driveLines]
    cases hE : (parseLine l n buf).error with
    | some e =>
      simp only [hE, if_true]
      rw [ih (n + 1) (driveStep vars (parseLine l n buf)) (errs ++ [e]),
        ih (n + 1) (driveStep vars (parseLine l n buf)) ([] ++ [e])]
      cases driveLines true rest (n + 1) (driveStep vars (parseLine l n buf)) []
          (parseLine l n buf).buffer with
      | error m => simp [Except.map]
      | ok o => simp [Except.map]
    | none =>
      simp only [hE]
      exact ih (n + 1) (driveStep vars (parseLine l n buf)) errs (parseLine l n buf).buffer

theorem driveLines_failfast (lines : List Str) :
    ∀ (n : Nat) (vars : Rec) (buf : Option MultilineBuffer),
      driveLines false lines n vars [] buf =
        (match driveLines true lines n vars [] buf with
         | .ok (v, [], b) => .ok (v, [], b)
         | .ok (_, e :: _, _) => .error e.message
         | .error m => .error m) := by
  induction lines with
  | nil => intro n vars buf; simp [driveLines]
  | cons l rest ih =>
    intro n vars buf
    simp only [driveLines]
    cases hE : (parseLine l n buf).error with
    | some e =>
      simp only [hE]
      obtain ⟨⟨v0, es0, b0⟩, hB⟩ := driveLines_acc_ok rest (n + 1)
        (driveStep vars (parseLine l n buf)) [] (parseLine l n buf).buffer
      rw [driveLines_errs rest (n + 1) (driveStep vars (parseLine l n buf)) ([] ++ [e]), hB]
      simp [Except.map]
    | none =>
      simp only [hE]
      exact ih (n + 1) (driveStep vars (parseLine l n buf)) (parseLine l n buf).buffer

theorem expandPass_acc_ok (entries : Rec) :
    ∀ (vars : Rec) (sysEnv : SysEnv) (expanded : Rec) (errs : List EnvParseError),
      ∃ out, expandPass true vars sysEnv entries expanded errs = .ok out := by
  induction entries with
  | nil => intro vars sysEnv expanded errs; exact ⟨(expanded, errs), rfl⟩
  | cons p rest ih =>
    intro vars sysEnv expanded errs
    obtain ⟨k, v⟩ := p
    simp only [expandPass]
    cases hC : (expandVariables v vars sysEnv [k]).circularError with
    | some msg => simpa [hC] using ih _ _ _ _
    | none => simpa [hC] using ih _ _ _ _

theorem expandPass_errs (entries : Rec) :
    ∀ (vars : Rec) (sysEnv : SysEnv) (expanded : Rec) (errs : List EnvParseError),
      expandPass true vars sysEnv entries expanded errs =
        (expandPass true vars sysEnv entries expanded []).map (fun o => (o.1, errs ++ o.2)) := by
  induction entries with
  | nil => intro vars sysEnv expanded errs; simp [expandPass, Except.map]
  | cons p rest ih =>
    intro vars sysEnv expanded errs
    obtain ⟨k, v⟩ := p
    simp only [expandPass]
    cases hC : (expandVariables v vars sysEnv [k]).circularError with
    | some msg =>
      simp only [hC, if_true]
      rw [ih vars sysEnv (recSet expanded k v) (errs ++ [createError 0 k msg .CIRCULAR_REFERENCE]),
        ih vars sysEnv (recSet expanded k v) ([] ++ [createError 0 k msg .CIRCULAR_REFERENCE])]
      cases expandPass true vars sysEnv rest (recSet expanded k v) [] with
      | error m => simp [Except.map]
      | ok o => simp [Except.map]
    | none =>
      simp only [hC]
      exact ih vars sysEnv (recSet expanded k (expandVariables v vars sysEnv [k]).result) errs

theorem expandPass_failfast (entries : Rec) :
    ∀ (vars : Rec) (sysEnv : SysEnv) (expanded : Rec),
      expandPass false vars sysEnv entries expanded [] =
        (match expandPass true vars sysEnv entries expanded [] with
         | .ok (xv, []) => .ok (xv, [])
         | .ok (_, e :: _) => .error e.message
         | .error m => .error m) := by
  induction entries with
  | nil => intro vars sysEnv expanded; simp [expandPass]
  | cons p rest ih =>
    intro vars sysEnv expanded
    obtain ⟨k, v⟩ := p
    simp only [expandPass]
    cases hC : (expandVariables v vars sysEnv [k]).circularError with
    | some msg =>
      simp only [hC]
      obtain ⟨⟨xv0, es0⟩, hB⟩ := expandPass_acc_ok rest vars sysEnv (recSet expanded k v) []
      rw [expandPass_errs rest vars sysEnv (recSet expanded k v)
        ([] ++ [createError 0 k msg .CIRCULAR_REFERENCE]), hB]
      simp [Except.map]
    | none =>
      simp only [hC]
      exact ih vars sysEnv (recSet expanded k (expandVariables v vars sysEnv [k]).result)

theorem parseEnvString_modes (content : Str) (ov : Bool) (sysEnv : SysEnv) :
    ∃ r, parseEnvString content ⟨ov, true, sysEnv⟩ = .ok r ∧
      r.success = r.errors.isEmpty ∧
      parseEnvString content ⟨ov, false, sysEnv⟩ =
        (match r.errors with
         | [] => .ok { vars := r.vars, errors := [], success := true }
         | e :: _ => .error e.message) := by
  obtain ⟨⟨v, es1, b⟩, hD⟩ := driveLines_acc_ok (splitLines (normalizeNewlines content)) 1 [] [] none
  obtain ⟨⟨xv, esE⟩, hE0⟩ := expandPass_acc_ok v v sysEnv [] []
  have hDf := driveLines_failfast (splitLines (normalizeNewlines content)) 1 [] none
  rw [hD] at hDf
  have hEf := expandPass_failfast v v sysEnv []
  rw [hE0] at hEf
  cases b with
  | none =>
    refine ⟨⟨xv, es1 ++ esE, (es1 ++ esE).isEmpty⟩, ?_, rfl, ?_⟩
    · simp only [parseEnvString, hD, bind, Except.bind, pure, Except.pure]
      rw [expandPass_errs v v sysEnv [] es1, hE0]
      simp [Except.map]
    · simp only [parseEnvString, hDf, bind, Except.bind, pure, Except.pure]
      cases es1 with
      | nil =>
        simp only [List.nil_append]
        rw [hEf]
        cases esE with
        | nil => simp
        | cons e tl => simp
      | cons e tl => simp
  | some b0 =>
    refine ⟨⟨xv, (es1 ++ [createError b0.startLine (rawStartedAt b0.startLine)
        (msgUnterminated b0.quoteChar b0.startLine) .UNTERMINATED_QUOTE]) ++ esE,
        ((es1 ++ [createError b0.startLine (rawStartedAt b0.startLine)
        (msgUnterminated b0.quoteChar b0.startLine) .UNTERMINATED_QUOTE]) ++ esE).isEmpty⟩,
      ?_, rfl, ?_⟩
    · simp only [parseEnvString, hD, bind, Except.bind, pure, Except.pure]
      rw [expandPass_errs v v sysEnv []
        (es1 ++ [createError b0.startLine (rawStartedAt b0.startLine)
          (msgUnterminated b0.quoteChar b0.startLine) .UNTERMINATED_QUOTE]), hE0]
      simp [Except.map]
    · simp only [parseEnvString, hDf, bind, Except.bind, pure, Except.pure]
      cases es1 with
      | nil => simp
      | cons e tl => simp

/-- C2: error-mode contract of `parseEnvString`.  With `accumulate = true` the
parser never throws and returns a result whose `success` flag is true exactly
when the error list is empty; with `accumulate = false` the first error of any
kind is thrown as an exception carrying that error message, and no partial
variable map is returned (the thrown exception carries only the message). -/
theorem parseEnvString_error_mode_contract (content : Str) (ov : Bool) (sysEnv : SysEnv) :
    (∃ r, parseEnvString content ⟨ov, true, sysEnv⟩ = .ok r ∧
      (r.success = true ↔ r.errors = [])) ∧
    (∀ r, parseEnvString content ⟨ov, true, sysEnv⟩ = .ok r →
      parseEnvString content ⟨ov, false, sysEnv⟩ =
        (match r.errors with
         | [] => .ok { vars := r.vars, errors := [], success := true }
         | e :: _ => .error e.message)) := by
  obtain ⟨r, h1, h2, h3⟩ := parseEnvString_modes content ov sysEnv
  constructor
  · refine ⟨r, h1, ?_⟩
    rw [h2]
    cases r.errors <;> simp
  · intro r' h'
    rw [h1] at h'
    injection h' with h'
    subst h'
    exact h3

/-- Witness for C2 at a concrete malformed input: fail-fast throws the first
error message of the accumulate run. -/
theorem parseEnvString_error_mode_contract_witness :
    parseEnvString ("NOGOOD").data ⟨false, false, []⟩ = .error (msgMissingEq 1) := by
  have h := (parseEnvString_error_mode_contract ("NOGOOD").data false []).2
    ⟨[], [createError 1 ("NOGOOD").data (msgMissingEq 1) .MALFORMED_LINE], false⟩ (by decide)
  exact h

/-- C3: variable interpolation always terminates (any fuel above the number of
variables not yet on the resolution stack suffices, so the JavaScript
recursion is bounded), and a self-referential pair `A=${B}`, `B=${A}` is
detected: accumulate mode records `CIRCULAR_REFERENCE` errors whose messages
list the full chain in order, fail-fast mode throws the first of them. -/
theorem interpolation_terminates_and_detects_cycles :
    (∀ (vars : Rec) (sysEnv : SysEnv) (fuel : Nat) (stack : List Str) (value : Str),
        countFree vars stack < fuel →
        (expandVarsF vars sysEnv fuel value stack).isSome = true) ∧
    parseEnvString ("A=${B}\nB=${A}").data ⟨false, true, []⟩ = .ok
      { vars := [(("A").data, ("${B}").data), (("B").data, ("${A}").data)],
        errors := [createError 0 ("A").data ("Circular reference detected: A -> B -> A").data
            .CIRCULAR_REFERENCE,
          createError 0 ("B").data ("Circular reference detected: B -> A -> B").data
            .CIRCULAR_REFERENCE],
        success := false } ∧
    parseEnvString ("A=${B}\nB=${A}").data ⟨false, false, []⟩ =
      .error (("Circular reference detected: A -> B -> A").data) :=
  ⟨fun vars sysEnv => expandVarsF_isSome vars sysEnv, by decide, by decide⟩

/-- Witness for C3: the fuel bound discharged at a concrete resolver state. -/
theorem interpolation_terminates_witness :
    countFree [(("A").data, ("${B}").data)] [("A").data] < 2 ∧
    (expandVarsF [(("A").data, ("${B}").data)] [] 2 ("${B}").data [("A").data]).isSome = true :=
  ⟨by decide,
    interpolation_terminates_and_detects_cycles.1 [(("A").data, ("${B}").data)] [] 2
      [("A").data] ("${B}").data (by decide)⟩

theorem recLookup_cons (q : Str × Str) (l : Rec) (k : Str) :
    recLookup (q :: l) k = (if q.1 == k then some q.2 else recLookup l k) := by
  simp only [recLookup, List.find?_cons]
  cases hb : (q.1 == k) <;> simp [hb]

theorem recHas_cons (q : Str × Str) (l : Rec) (k : Str) :
    recHas (q :: l) k = ((q.1 == k) || recHas l k) := by
  simp [recHas, List.any_cons]

theorem recLookup_map_set_self (r : Rec) (k v : Str) (h : recHas r k = true) :
    recLookup (r.map (fun p => if p.1 == k then (k, v) else p)) k = some v := by
  induction r with
  | nil => simp [recHas] at h
  | cons p rest ih =>
    cases hb : (p.1 == k) with
    | true =>
      rw [List.map_cons, if_pos hb, recLookup_cons]
      simp
    | false =>
      have h2 : recHas rest k = true := by
        rw [recHas_cons, hb, Bool.false_or] at h
        exact h
      rw [List.map_cons, if_neg (by simp [hb]), recLookup_cons, if_neg (by simp [hb])]
      exact ih h2

theorem recLookup_map_set_other (r : Rec) (k v k' : Str) (h : k' ≠ k) :
    recLookup (r.map (fun p => if p.1 == k then (k, v) else p)) k' = recLookup r k' := by
  induction r with
  | nil => simp [recLookup]
  | cons p rest ih =>
    cases hb : (p.1 == k) with
    | true =>
      have hp : p.1 = k := by simpa using hb
      have hb1 : ((k : Str) == k') = false := beq_eq_false_iff_ne.mpr (fun he => h he.symm)
      have hb2 : (p.1 == k') = false := by
        rw [hp]
        exact hb1
      rw [List.map_cons, if_pos hb, recLookup_cons, recLookup_cons, if_neg (by simp [hb1]),
        if_neg (by simp [hb2])]
      exact ih
    | false =>
      rw [List.map_cons, if_neg (by simp [hb]), recLookup_cons, recLookup_cons]
      cases hbq : (p.1 == k') with
      | true => simp [hbq]
      | false =>
        rw [if_neg (by simp [hbq]), if_neg (by simp [hbq])]
        exact ih

theorem recHas_map_set_self (r : Rec) (k v : Str) (h : recHas r k = true) :
    recHas (r.map (fun p => if p.1 == k then (k, v) else p)) k = true := by
  induction r with
  | nil => simp [recHas] at h
  | cons p rest ih =>
    cases hb : (p.1 == k) with
    | true =>
      rw [List.map_cons, if_pos hb, recHas_cons]
      simp
    | false =>
      have h2 : recHas rest k = true := by
        rw [recHas_cons, hb, Bool.false_or] at h
        exact h
      rw [List.map_cons, if_neg (by simp [hb]), recHas_cons, ih h2]
      simp

theorem recHas_map_set_other (r : Rec) (k v k' : Str) (h : k' ≠ k) :
    recHas (r.map (fun p => if p.1 == k then (k, v) else p)) k' = recHas r k' := by
  induction r with
  | nil => simp [recHas]
  | cons p rest ih =>
    cases hb : (p.1 == k) with
    | true =>
      have hp : p.1 = k := by simpa using hb
      have hb1 : ((k : Str) == k') = false := beq_eq_false_iff_ne.mpr (fun he => h he.symm)
      have hb2 : (p.1 == k') = false := by
        rw [hp]
        exact hb1
      rw [List.map_cons, if_pos hb, recHas_cons, recHas_cons, hb1, hb2, ih]
    | false =>
      rw [List.map_cons, if_neg (by simp [hb]), recHas_cons, recHas_cons, ih]

theorem recLookup_recSet_self (r : Rec) (k v : Str) :
    recLookup (recSet r k v) k = some v := by
  unfold recSet
  by_cases h : recHas r k
  · rw [if_pos h]
    exact recLookup_map_set_self r k v h
  · rw [if_neg h]
    have hf : r.find? (fun p => p.1 == k) = none := by
      rw [List.find?_eq_none]
      intro p hp hbeq
      exact h (List.any_eq_true.mpr ⟨p, hp, hbeq⟩)
    simp [recLookup, List.find?_append, hf, List.find?_cons]

theorem recLookup_recSet_other (r : Rec) (k v k' : Str) (h : k' ≠ k) :
    recLookup (recSet r k v) k' = recLookup r k' := by
  unfold recSet
  by_cases hh : recHas r k
  · rw [if_pos hh]
    exact recLookup_map_set_other r k v k' h
  · rw [if_neg hh]
    have hb1 : ((k : Str) == k') = false := beq_eq_false_iff_ne.mpr (fun he => h he.symm)
    simp only [recLookup, List.find?_append, List.find?_cons, hb1, List.find?_nil]
    cases r.find? (fun p => p.1 == k') <;> simp

theorem recHas_recSet_self (r : Rec) (k v : Str) : recHas (recSet r k v) k = true := by
  unfold recSet
  by_cases h : recHas r k
  · rw [if_pos h]
    exact recHas_map_set_self r k v h
  · rw [if_neg h]
    simp [recHas, List.any_append]

theorem recHas_recSet_other (r : Rec) (k v k' : Str) (h : k' ≠ k) :
    recHas (recSet r k v) k' = recHas r k' := by
  unfold recSet
  by_cases hh : recHas r k
  · rw [if_pos hh]
    exact recHas_map_set_other r k v k' h
  · rw [if_neg hh]
    have hb1 : ((k : Str) == k') = false := beq_eq_false_iff_ne.mpr (fun he => h he.symm)
    simp [recHas, List.any_append, hb1]

theorem lastLookup_cons (p : Str × Str) (rest : Rec) (k : Str) :
    lastLookup (p :: rest) k =
      (match lastLookup rest k with
       | some v => some v
       | none => if p.1 == k then some p.2 else none) := by
  unfold lastLookup recLookup
  rw [List.reverse_cons, List.find?_append]
  cases hq : (rest.reverse.find? (fun q => q.1 == k)) with
  | some q => simp [hq, Option.or]
  | none =>
    simp only [hq, Option.or]
    cases hb : (p.1 == k) <;> simp [List.find?_cons, List.find?_nil, hb]

theorem recLookup_recAssign (a b : Rec) (k : Str) :
    recLookup (recAssign a b) k =
      (match lastLookup b k with
       | some v => some v
       | none => recLookup a k) := by
  induction b generalizing a with
  | nil => simp [recAssign, lastLookup, recLookup]
  | cons p rest ih =>
    have hstep : recAssign a (p :: rest) = recAssign (recSet a p.1 p.2) rest := rfl
    rw [hstep, ih, lastLookup_cons]
    cases lastLookup rest k with
    | some v => simp
    | none =>
      simp only []
      by_cases hk : p.1 = k
      · subst hk
        simp [recLookup_recSet_self]
      · have hb : (p.1 == k) = false := by simpa using hk
        simp only [hb, if_neg]
        rw [recLookup_recSet_other a p.1 p.2 k (fun he => hk he.symm)]
        simp

theorem loadStore_cons (env : Rec) (b : Bool) (p : Str × Str) (rest : Rec) :
    loadStore env b (p :: rest) =
      loadStore (if b || !recHas env p.1 then recSet env p.1 p.2 else env) b rest := rfl

theorem loadStore_preserved (entries : Rec) :
    ∀ (env : Rec) (k : Str), recHas env k = true →
      recLookup (loadStore env false entries) k = recLookup env k := by
  induction entries with
  | nil => intro env k _; rfl
  | cons p rest ih =>
    intro env k hk
    rw [loadStore_cons]
    cases hph : recHas env p.1 with
    | true =>
      rw [if_neg (by decide)]
      exact ih env k hk
    | false =>
      have hne : k ≠ p.1 := by
        intro he
        rw [he, hph] at hk
        exact Bool.false_ne_true hk
      rw [if_pos (by decide)]
      rw [ih (recSet env p.1 p.2) k (by rw [recHas_recSet_other env p.1 p.2 k hne]; exact hk)]
      exact recLookup_recSet_other env p.1 p.2 k hne

theorem loadStore_first_new (entries : Rec) :
    ∀ (env : Rec) (k : Str) (v : Str), recHas env k = false → recLookup entries k = some v →
      recLookup (loadStore env false entries) k = some v := by
  induction entries with
  | nil => intro env k v _ hl; simp [recLookup] at hl
  | cons p rest ih =>
    intro env k v hk hl
    rw [recLookup_cons] at hl
    rw [loadStore_cons]
    cases hb : (p.1 == k) with
    | true =>
      have hpk : p.1 = k := by simpa using hb
      rw [if_pos hb] at hl
      injection hl with hl
      subst hl
      have hph : recHas env p.1 = false := by rw [hpk]; exact hk
      rw [hph, if_pos (by decide)]
      rw [loadStore_preserved rest (recSet env p.1 p.2) k
        (by rw [hpk]; exact recHas_recSet_self env k p.2)]
      rw [hpk]
      exact recLookup_recSet_self env k p.2
    | false =>
      have hne : k ≠ p.1 := by
        intro he
        rw [he] at hb
        simp at hb
      rw [if_neg (by simp [hb])] at hl
      cases hph : recHas env p.1 with
      | true =>
        rw [if_neg (by decide)]
        exact ih env k v hk hl
      | false =>
        rw [if_pos (by decide)]
        exact ih (recSet env p.1 p.2) k v
          (by rw [recHas_recSet_other env p.1 p.2 k hne]; exact hk) hl

theorem loadStore_last_none (entries : Rec) :
    ∀ (env : Rec) (b : Bool) (k : Str), lastLookup entries k = none →
      recLookup (loadStore env b entries) k = recLookup env k := by
  induction entries with
  | nil => intro env b k _; rfl
  | cons p rest ih =>
    intro env b k hl
    rw [lastLookup_cons] at hl
    cases hrest : lastLookup rest k with
    | some v => rw [hrest] at hl; simp at hl
    | none =>
      rw [hrest] at hl
      cases hb : (p.1 == k) with
      | true => rw [hb] at hl; simp at hl
      | false =>
        have hne : k ≠ p.1 := by
          intro he
          rw [he] at hb
          simp at hb
        rw [loadStore_cons]
        cases hcond : (b || !recHas env p.1) with
        | true =>
          rw [if_pos rfl]
          rw [ih (recSet env p.1 p.2) b k hrest]
          exact recLookup_recSet_other env p.1 p.2 k hne
        | false =>
          rw [if_neg Bool.false_ne_true]
          exact ih env b k hrest

theorem loadStore_override_last (entries : Rec) :
    ∀ (env : Rec) (k : Str) (v : Str), lastLookup entries k = some v →
      recLookup (loadStore env true entries) k = some v := by
  induction entries with
  | nil => intro env k v hl; simp [lastLookup, recLookup] at hl
  | cons p rest ih =>
    intro env k v hl
    rw [lastLookup_cons] at hl
    rw [loadStore_cons]
    rw [if_pos (by simp : (true || !recHas env p.1) = true)]
    cases hrest : lastLookup rest k with
    | some v2 =>
      rw [hrest] at hl
      injection hl with hl
      subst hl
      exact ih (recSet env p.1 p.2) k _ hrest
    | none =>
      rw [hrest] at hl
      cases hb : (p.1 == k) with
      | true =>
        rw [hb] at hl
        simp only [if_pos rfl] at hl
        injection hl with hl
        subst hl
        have hpk : p.1 = k := by simpa using hb
        rw [loadStore_last_none rest (recSet env p.1 p.2) true k hrest, hpk]
        exact recLookup_recSet_self env k p.2
      | false =>
        rw [hb] at hl
        simp at hl

theorem loadEnvFile_eq (fs : FS) (env : Rec) (filePath : Str) (opts : EnvParseOptions)
    (content : Str) (r : EnvParseResult) (hex : fsLookup fs filePath = some content)
    (h : parseEnvFile fs filePath opts = .ok r) :
    loadEnvFile fs env filePath opts = .ok (loadStore env opts.override r.vars) := by
  unfold loadEnvFile
  rw [if_neg (by simp [hex]), h]

theorem loadEnvFiles_eq (fs : FS) (env : Rec) (filePaths : List Str) (opts : EnvParseOptions)
    (r : EnvParseResult) (h : parseEnvFiles fs filePaths opts = .ok r) :
    loadEnvFiles fs env filePaths opts = .ok (loadStore env opts.override r.vars) := by
  unfold loadEnvFiles
  rw [h]

theorem parseEnvFile_acc_ok (fs : FS) (filePath : Str) (ov : Bool) (sysEnv : SysEnv) :
    ∃ r, parseEnvFile fs filePath ⟨ov, true, sysEnv⟩ = .ok r := by
  unfold parseEnvFile
  cases hfs : fsLookup fs filePath with
  | none => exact ⟨_, rfl⟩
  | some content =>
    obtain ⟨r, hr, _, _⟩ := parseEnvString_modes content ov sysEnv
    exact ⟨r, by simp [hr]⟩

theorem filesLoop_acc_irrelevant (fs : FS) (ov a : Bool) (se : SysEnv) (ps : List Str) :
    ∀ (vars : Rec) (errs : List EnvParseError),
      filesLoop fs ⟨ov, a, se⟩ ps vars errs = filesLoop fs ⟨ov, true, se⟩ ps vars errs := by
  induction ps with
  | nil => intro vars errs; rfl
  | cons p rest ih =>
    intro vars errs
    simp only [filesLoop]
    cases hfs : fsLookup fs p with
    | none => exact ih vars errs
    | some c =>
      cases parseEnvFile fs p ⟨ov, true, se⟩ with
      | error m => rfl
      | ok r => exact ih _ _

theorem filesLoop_acc_ok (fs : FS) (ov : Bool) (se : SysEnv) (ps : List Str) :
    ∀ (vars : Rec) (errs : List EnvParseError),
      ∃ out, filesLoop fs ⟨ov, true, se⟩ ps vars errs = .ok out := by
  induction ps with
  | nil => intro vars errs; exact ⟨(vars, errs), rfl⟩
  | cons p rest ih =>
    intro vars errs
    simp only [filesLoop]
    cases hfs : fsLookup fs p with
    | none => exact ih vars errs
    | some c =>
      obtain ⟨r, hr⟩ := parseEnvFile_acc_ok fs p ov se
      rw [show ({ (⟨ov, true, se⟩ : EnvParseOptions) with accumulate := true } : EnvParseOptions)
        = ⟨ov, true, se⟩ from rfl, hr]
      exact ih _ _

theorem filesLoop_append (fs : FS) (opts : EnvParseOptions) (ps qs : List Str) :
    ∀ (vars : Rec) (errs : List EnvParseError),
      filesLoop fs opts (ps ++ qs) vars errs =
        (filesLoop fs opts ps vars errs).bind (fun o => filesLoop fs opts qs o.1 o.2) := by
  induction ps with
  | nil => intro vars errs; simp [filesLoop, Except.bind]
  | cons p rest ih =>
    intro vars errs
    simp only [List.cons_append, filesLoop]
    cases hfs : fsLookup fs p with
    | none => exact ih vars errs
    | some c =>
      cases parseEnvFile fs p { opts with accumulate := true } with
      | error m => simp [Except.bind]
      | ok r => exact ih _ _

theorem filesLoop_skip (fs : FS) (opts : EnvParseOptions) (p : Str) (h : fsLookup fs p = none)
    (xs ys : List Str) :
    ∀ (vars : Rec) (errs : List EnvParseError),
      filesLoop fs opts (xs ++ p :: ys) vars errs = filesLoop fs opts (xs ++ ys) vars errs := by
  induction xs with
  | nil =>
    intro vars errs
    simp [filesLoop, h]
  | cons q rest ih =>
    intro vars errs
    simp only [List.cons_append, filesLoop]
    cases hfs : fsLookup fs q with
    | none => exact ih vars errs
    | some c =>
      cases parseEnvFile fs q { opts with accumulate := true } with
      | error m => rfl
      | ok r => exact ih _ _

theorem parseEnvFiles_modes (fs : FS) (ov : Bool) (se : SysEnv) (ps : List Str) :
    ∃ (vars : Rec) (errs : List EnvParseError),
      filesLoop fs ⟨ov, true, se⟩ ps [] [] = .ok (vars, errs) ∧
      parseEnvFiles fs ps ⟨ov, true, se⟩ = .ok ⟨vars, errs, errs.isEmpty⟩ ∧
      parseEnvFiles fs ps ⟨ov, false, se⟩ =
        (match errs with
         | [] => .ok ⟨vars, [], true⟩
         | e :: _ => .error e.message) := by
  obtain ⟨⟨vars, errs⟩, hF⟩ := filesLoop_acc_ok fs ov se ps [] []
  refine ⟨vars, errs, hF, ?_, ?_⟩
  · unfold parseEnvFiles
    rw [hF]
    simp only [bind, Except.bind]
    cases errs with
    | nil => rfl
    | cons e tl => rfl
  · unfold parseEnvFiles
    rw [filesLoop_acc_irrelevant fs ov false se ps, hF]
    simp only [bind, Except.bind]
    cases errs with
    | nil => rfl
    | cons e tl => rfl

theorem filesLoop_snoc_existing (fs : FS) (ov : Bool) (se : SysEnv) (ps : List Str) (p : Str)
    (content : Str) (hex : fsLookup fs p = some content) (r : EnvParseResult)
    (hr : parseEnvString content ⟨ov, true, se⟩ = .ok r) :
    ∀ (vars errs0vars : Rec) (errs errs0 : List EnvParseError),
      filesLoop fs ⟨ov, true, se⟩ ps vars errs = .ok (errs0vars, errs0) →
      filesLoop fs ⟨ov, true, se⟩ (ps ++ [p]) vars errs =
        .ok (recAssign errs0vars r.vars, errs0 ++ r.errors) := by
  intro vars vars0 errs errs0 h
  rw [filesLoop_append, h]
  have hp : parseEnvFile fs p ({ (⟨ov, true, se⟩ : EnvParseOptions) with accumulate := true })
      = .ok r := by
    show parseEnvFile fs p ⟨ov, true, se⟩ = .ok r
    unfold parseEnvFile
    rw [hex]
    simp [hr]
  simp only [Except.bind, filesLoop, hex, hp]
  simp

/-- C7: store-write frame property of `loadEnvFile` and `loadEnvFiles`.  With
`override` unset, a parsed key is written only when absent from the store, so
every key already present keeps its prior value, and absent keys receive the
parsed value; with `override = true` the parsed value overwrites the store
entry.  Both loaders write the parsed map through the same store loop. -/
theorem load_env_store_frame :
    (∀ (entries env : Rec) (k : Str), recHas env k = true →
      recLookup (loadStore env false entries) k = recLookup env k) ∧
    (∀ (entries env : Rec) (k v : Str), recHas env k = false → recLookup entries k = some v →
      recLookup (loadStore env false entries) k = some v) ∧
    (∀ (entries env : Rec) (k v : Str), lastLookup entries k = some v →
      recLookup (loadStore env true entries) k = some v) ∧
    (∀ (fs : FS) (env : Rec) (filePath : Str) (opts : EnvParseOptions) (content : Str)
        (r : EnvParseResult), fsLookup fs filePath = some content →
      parseEnvFile fs filePath opts = .ok r →
      loadEnvFile fs env filePath opts = .ok (loadStore env opts.override r.vars)) ∧
    (∀ (fs : FS) (env : Rec) (filePaths : List Str) (opts : EnvParseOptions)
        (r : EnvParseResult), parseEnvFiles fs filePaths opts = .ok r →
      loadEnvFiles fs env filePaths opts = .ok (loadStore env opts.override r.vars)) :=
  ⟨fun entries env k h => loadStore_preserved entries env k h,
   fun entries env k v h1 h2 => loadStore_first_new entries env k v h1 h2,
   fun entries env k v h => loadStore_override_last entries env k v h,
   fun fs env fp o c r h1 h2 => loadEnvFile_eq fs env fp o c r h1 h2,
   fun fs env fps o r h => loadEnvFiles_eq fs env fps o r h⟩

/-- Witness for C7: a store with `K=orig` keeps it when loading `K=new`
without `override`, and receives `new` with `override = true`; the fresh key
`N` is written in both cases. -/
theorem load_env_store_frame_witness :
    loadEnvFile [(("f").data, ("K=new\nN=add").data)] [(("K").data, ("orig").data)]
        ("f").data {} =
      .ok [(("K").data, ("orig").data), (("N").data, ("add").data)] ∧
    loadEnvFile [(("f").data, ("K=new\nN=add").data)] [(("K").data, ("orig").data)]
        ("f").data { override := true } =
      .ok [(("K").data, ("new").data), (("N").data, ("add").data)] := by
  constructor
  · rw [load_env_store_frame.2.2.2.1 [(("f").data, ("K=new\nN=add").data)]
      [(("K").data, ("orig").data)] (("f").data) {} (("K=new\nN=add").data)
      ⟨[(("K").data, ("new").data), (("N").data, ("add").data)], [], true⟩ (by decide) (by decide)]
    decide
  · rw [load_env_store_frame.2.2.2.1 [(("f").data, ("K=new\nN=add").data)]
      [(("K").data, ("orig").data)] (("f").data) { override := true } (("K=new\nN=add").data)
      ⟨[(("K").data, ("new").data), (("N").data, ("add").data)], [], true⟩ (by decide) (by decide)]
    decide

/-- C6: cascading multi-file contract of `parseEnvFiles`.  A missing source is
skipped silently in either mode; an existing source appended on the right is
parsed in accumulate mode, its map merged so that later sources overwrite
earlier ones, and its errors concatenated in source order; the merge resolves
a key to the rightmost binding; and with `accumulate = false` the first
collected error is thrown. -/
theorem parseEnvFiles_cascading (fs : FS) (ov : Bool) (se : SysEnv) :
    (∀ (a : Bool) (xs ys : List Str) (p : Str), fsLookup fs p = none →
      parseEnvFiles fs (xs ++ p :: ys) ⟨ov, a, se⟩ = parseEnvFiles fs (xs ++ ys) ⟨ov, a, se⟩) ∧
    (∀ (ps : List Str) (p content : Str) (r : EnvParseResult) (vars : Rec)
        (errs : List EnvParseError),
      fsLookup fs p = some content →
      parseEnvString content ⟨ov, true, se⟩ = .ok r →
      filesLoop fs ⟨ov, true, se⟩ ps [] [] = .ok (vars, errs) →
      parseEnvFiles fs (ps ++ [p]) ⟨ov, true, se⟩ =
        .ok ⟨recAssign vars r.vars, errs ++ r.errors, (errs ++ r.errors).isEmpty⟩) ∧
    (∀ (a b : Rec) (k : Str), recLookup (recAssign a b) k =
      (match lastLookup b k with
       | some v => some v
       | none => recLookup a k)) ∧
    (∀ (ps : List Str) (r : EnvParseResult), parseEnvFiles fs ps ⟨ov, true, se⟩ = .ok r →
      parseEnvFiles fs ps ⟨ov, false, se⟩ =
        (match r.errors with
         | [] => .ok ⟨r.vars, [], true⟩
         | e :: _ => .error e.message)) := by
  refine ⟨?_, ?_, fun a b k => recLookup_recAssign a b k, ?_⟩
  · intro a xs ys p h
    unfold parseEnvFiles
    rw [filesLoop_skip fs ⟨ov, a, se⟩ p h xs ys]
  · intro ps p content r vars errs hex hr hF
    unfold parseEnvFiles
    rw [filesLoop_snoc_existing fs ov se ps p content hex r hr [] vars [] errs hF]
    simp only [bind, Except.bind]
    cases (errs ++ r.errors) with
    | nil => rfl
    | cons e tl => rfl
  · intro ps r hAcc
    obtain ⟨vars, errs, hF, hA, hFf⟩ := parseEnvFiles_modes fs ov se ps
    rw [hA] at hAcc
    injection hAcc with hAcc
    subst hAcc
    rw [hFf]

/-- Witness for C6: a missing first source is skipped, the merge prefers the
later file, and the fail-fast run of an error-free cascade returns the merged
map. -/
theorem parseEnvFiles_cascading_witness :
    parseEnvFiles [(("f1").data, ("K=base\nONLY1=x").data), (("f2").data, ("K=override").data)]
        [("f0").data, ("f1").data, ("f2").data] {} =
      parseEnvFiles [(("f1").data, ("K=base\nONLY1=x").data), (("f2").data, ("K=override").data)]
        [("f1").data, ("f2").data] {} ∧
    parseEnvFiles [(("f1").data, ("K=base\nONLY1=x").data), (("f2").data, ("K=override").data)]
        [("f1").data, ("f2").data] ⟨false, false, []⟩ =
      .ok ⟨[(("K").data, ("override").data), (("ONLY1").data, ("x").data)], [], true⟩ := by
  constructor
  · exact (parseEnvFiles_cascading
      [(("f1").data, ("K=base\nONLY1=x").data), (("f2").data, ("K=override").data)] false []).1
      false [] [("f1").data, ("f2").data] ("f0").data (by decide)
  · have h := (parseEnvFiles_cascading
      [(("f1").data, ("K=base\nONLY1=x").data), (("f2").data, ("K=override").data)] false []).2.2.2
      [("f1").data, ("f2").data]
      ⟨[(("K").data, ("override").data), (("ONLY1").data, ("x").data)], [], true⟩ (by decide)
    exact h

/-- C10: a double-quoted value closed only on a later line keeps the escape
pairs accumulated during the scan verbatim (`processEscapes` is not applied on
the continuation-closing path, as re-decoding the stored value would change
it), and the closing quote on the continuation line is found by plain index
search, so even a backslash-escaped quote terminates the string, the rest of
that line being discarded; a double-quoted value closed on its opening line is
escape-decoded. -/
theorem multiline_double_quote_verbatim :
    parseLine ("de\\\"f\"").data 2
        (some { key := ("A").data, value := ('x' :: '\\' :: 't' :: 'y' :: []),
                quoteChar := '"', startLine := 1 }) =
      { key := some (("A").data),
        value := some ('x' :: '\\' :: 't' :: 'y' :: '\n' :: 'd' :: 'e' :: '\\' :: []),
        isComplete := true, buffer := none } ∧
    parseEnvString ("A=\"x\\ty\nde\\\"f\"").data ⟨false, true, []⟩ =
      .ok ⟨[(("A").data, ('x' :: '\\' :: 't' :: 'y' :: '\n' :: 'd' :: 'e' :: '\\' :: []))], [], true⟩ ∧
    processEscapes ('x' :: '\\' :: 't' :: 'y' :: '\n' :: 'd' :: 'e' :: '\\' :: []) ≠
      ('x' :: '\\' :: 't' :: 'y' :: '\n' :: 'd' :: 'e' :: '\\' :: []) ∧
    parseEnvString ("B=\"x\\ty\"").data ⟨false, true, []⟩ =
      .ok ⟨[(("B").data, ('x' :: '\t' :: 'y' :: []))], [], true⟩ :=
  ⟨by decide, by decide, by decide, by decide⟩

/-- C9 evaluation: the unquoted decoder truncates at the first `#` even when
that `#` stands between interior quotes (plain `indexOf`, contradicting the
quote-awareness stated in the spec and in the code comment), while plain
values and trailing comments behave as documented. -/
theorem unquoted_hash_truncation_eval :
    parseEnvString ("KEY=va\"lu#e\"").data ⟨false, true, []⟩ =
      .ok ⟨[(("KEY").data, ("va\"lu").data)], [], true⟩ ∧
    ("va\"lu").data ≠ ("va\"lu#e\"").data ∧
    parseEnvString ("KEY=value").data ⟨false, true, []⟩ =
      .ok ⟨[(("KEY").data, ("value").data)], [], true⟩ ∧
    parseEnvString ("KEY=value   # comment").data ⟨false, true, []⟩ =
      .ok ⟨[(("KEY").data, ("value").data)], [], true⟩ :=
  ⟨by decide, by decide, by decide, by decide⟩

theorem idxOf_not_mem_append (c : Char) (l : Str) (h : c ∉ l) :
    idxOf c (l ++ [c]) = some l.length := by
  induction l with
  | nil => simp [idxOf]
  | cons d rest ih =>
    have hd : d ≠ c := by
      intro he
      exact h (he ▸ List.mem_cons_self d rest)
    have hr : c ∉ rest := fun hm => h (List.mem_cons_of_mem d hm)
    simp [idxOf, hd, ih hr]

theorem parseLine_keyA_single_quoted (v : Str) (n : Nat) (hq : sq ∉ v) :
    parseLine ('A' :: '=' :: sq :: (v ++ [sq])) n none =
      { key := some (['A']), value := some v, isComplete := true, buffer := none } := by
  have h1 : idxOf sq (v ++ [sq]) = some v.length := idxOf_not_mem_append sq v hq
  simp only [parseLine]
  rw [show jsTrimStart ('A' :: '=' :: sq :: (v ++ [sq])) = 'A' :: '=' :: sq :: (v ++ [sq]) by
    simp [jsTrimStart, List.dropWhile_cons, show isJsWs ('A') = false from by decide]]
  rw [if_neg (by simp [List.isPrefixOf, show (('#' : Char) == 'A') = false from by decide])]
  rw [if_neg (by simp [List.isPrefixOf, show (('e' : Char) == 'A') = false from by decide])]
  rw [show idxOf '=' ('A' :: '=' :: sq :: (v ++ [sq])) = some 1 by
    simp [idxOf, show (('A' : Char) = '=') = False from by simp]]
  simp only [List.take_succ_cons, List.take_zero, List.drop_succ_cons, List.drop_zero]
  rw [if_neg (by decide : ¬((!keyValid (jsTrim (['A']))) = true))]
  simp only [List.headD_cons, List.tail_cons, h1]
  rw [List.take_left' rfl, if_pos (by trivial), show jsTrim (['A']) = (['A']) from by decide]

/-- C1 counterexample: on `A='${X}\n'` (single-quoted, `X` undefined
everywhere) the parser stores the two-character string backslash-n, not the
raw six characters: the second interpolation pass expanded `${X}` to the
empty string even inside a single-quoted value. -/
theorem single_quote_interpolation_counterexample :
    parseEnvString ('A' :: '=' :: sq :: '$' :: '{' :: 'X' :: '}' :: '\\' :: 'n' :: sq :: [])
        ⟨false, true, []⟩ =
      .ok ⟨[(("A").data, ('\\' :: 'n' :: []))], [], true⟩ ∧
    ('\\' :: 'n' :: []) ≠ ('$' :: '{' :: 'X' :: '}' :: '\\' :: 'n' :: []) :=
  ⟨by decide, by decide⟩

/-- C1 amended: a single-quoted value is stored raw at line-parse time — the
text between the quotes, with no escape decoding — but the interpolation pass
still runs over it, so `A='${X}\n'` with `X` undefined yields the
two-character value backslash-n (the `${X}` replaced by the empty string),
not the literal six characters. -/
theorem single_quote_raw_at_line_level (v : Str) (n : Nat) (hq : sq ∉ v) :
    parseLine ('A' :: '=' :: sq :: (v ++ [sq])) n none =
      { key := some (['A']), value := some v, isComplete := true, buffer := none } ∧
    parseEnvString ('A' :: '=' :: sq :: '$' :: '{' :: 'X' :: '}' :: '\\' :: 'n' :: sq :: [])
        ⟨false, true, []⟩ =
      .ok ⟨[(("A").data, ('\\' :: 'n' :: []))], [], true⟩ :=
  ⟨parseLine_keyA_single_quoted v n hq, by decide⟩

/-- Witness for the amended C1, at the raw value `${X}\n` itself. -/
theorem single_quote_raw_witness :
    sq ∉ ('$' :: '{' :: 'X' :: '}' :: '\\' :: 'n' :: []) ∧
    parseLine ('A' :: '=' :: sq :: (('$' :: '{' :: 'X' :: '}' :: '\\' :: 'n' :: []) ++ [sq])) 1 none =
      { key := some (['A']), value := some ('$' :: '{' :: 'X' :: '}' :: '\\' :: 'n' :: []),
        isComplete := true, buffer := none } :=
  ⟨by decide,
    (single_quote_raw_at_line_level ('$' :: '{' :: 'X' :: '}' :: '\\' :: 'n' :: []) 1 (by decide)).1⟩

theorem recSet_keys_nodup (r : Rec) (k v : Str) (h : (r.map Prod.fst).Nodup) :
    ((recSet r k v).map Prod.fst).Nodup := by
  unfold recSet
  by_cases hh : recHas r k
  · rw [if_pos hh]
    have hkeys : (r.map (fun p => if p.1 == k then (k, v) else p)).map Prod.fst = r.map Prod.fst := by
      rw [List.map_map]
      apply List.map_congr_left
      intro p _
      cases hb : (p.1 == k) with
      | true =>
        have : p.1 = k := by simpa using hb
        simp [Function.comp, hb, this]
      | false => simp [Function.comp, hb]
    rw [hkeys]
    exact h
  · rw [if_neg hh]
    rw [List.map_append]
    rw [List.nodup_append]
    refine ⟨h, by simp, ?_⟩
    intro a ha hb
    simp at hb
    subst hb
    obtain ⟨p, hp, hpk⟩ := List.mem_map.mp ha
    apply hh
    apply List.any_eq_true.mpr
    exact ⟨p, hp, by simp [hpk]⟩

theorem driveStep_keys_nodup (vars : Rec) (r : ParseLineResult)
    (h : (vars.map Prod.fst).Nodup) : ((driveStep vars r).map Prod.fst).Nodup := by
  unfold driveStep
  by_cases hc : r.isComplete && r.key.isSome
  · rw [if_pos hc]
    exact recSet_keys_nodup _ _ _ h
  · rw [if_neg hc]
    exact h

theorem driveLines_nodup (lines : List Str) :
    ∀ (n : Nat) (vars : Rec) (errs : List EnvParseError) (buf : Option MultilineBuffer)
      (v : Rec) (es : List EnvParseError) (b : Option MultilineBuffer),
      (vars.map Prod.fst).Nodup →
      driveLines true lines n vars errs buf = .ok (v, es, b) →
      (v.map Prod.fst).Nodup := by
  induction lines with
  | nil =>
    intro n vars errs buf v es b hN h
    simp only [driveLines] at h
    injection h with h
    injection h with h1 h2
    subst h1
    exact hN
  | cons l rest ih =>
    intro n vars errs buf v es b hN h
    simp only [driveLines] at h
    cases hE : (parseLine l n buf).error with
    | some e =>
      rw [hE] at h
      simp only [if_pos rfl] at h
      exact ih (n + 1) _ _ _ v es b (driveStep_keys_nodup vars _ hN) h
    | none =>
      rw [hE] at h
      exact ih (n + 1) _ _ _ v es b (driveStep_keys_nodup vars _ hN) h

theorem expandPass_frame (vars : Rec) (sysEnv : SysEnv) :
    ∀ (entries expanded : Rec) (errs : List EnvParseError) (xv : Rec)
      (es : List EnvParseError),
      expandPass true vars sysEnv entries expanded errs = .ok (xv, es) →
      ∀ k, (∀ p ∈ entries, p.1 ≠ k) → recLookup xv k = recLookup expanded k := by
  intro entries
  induction entries with
  | nil =>
    intro expanded errs xv es h k _
    simp only [expandPass] at h
    injection h with h
    injection h with h1 h2
    subst h1
    rfl
  | cons p rest ih =>
    intro expanded errs xv es h k hk
    obtain ⟨k0, v0⟩ := p
    have hne : k0 ≠ k := hk (k0, v0) (List.mem_cons_self _ _)
    simp only [expandPass] at h
    cases hC : (expandVariables v0 vars sysEnv [k0]).circularError with
    | some msg =>
      rw [hC] at h
      simp only [if_pos rfl] at h
      rw [ih _ _ xv es h k (fun q hq => hk q (List.mem_cons_of_mem _ hq))]
      exact recLookup_recSet_other expanded k0 v0 k (fun he => hne he.symm)
    | none =>
      rw [hC] at h
      rw [ih _ _ xv es h k (fun q hq => hk q (List.mem_cons_of_mem _ hq))]
      exact recLookup_recSet_other expanded k0 _ k (fun he => hne he.symm)

theorem expandPass_errs_mem (vars : Rec) (sysEnv : SysEnv) (entries expanded : Rec)
    (errs : List EnvParseError) (xv : Rec) (es : List EnvParseError)
    (h : expandPass true vars sysEnv entries expanded errs = .ok (xv, es))
    (e : EnvParseError) (he : e ∈ errs) : e ∈ es := by
  obtain ⟨⟨xv0, es0⟩, h0⟩ := expandPass_acc_ok entries vars sysEnv expanded []
  rw [expandPass_errs entries vars sysEnv expanded errs, h0] at h
  simp [Except.map] at h
  obtain ⟨_, h2⟩ := h
  rw [← h2]
  exact List.mem_append_left _ he

theorem expandPass_lookup (vars : Rec) (sysEnv : SysEnv) :
    ∀ (entries : Rec), (entries.map Prod.fst).Nodup →
      ∀ (expanded : Rec) (errs : List EnvParseError) (xv : Rec) (es : List EnvParseError),
        expandPass true vars sysEnv entries expanded errs = .ok (xv, es) →
        ∀ k v, recLookup entries k = some v →
          (∀ msg, (expandVariables v vars sysEnv [k]).circularError = some msg →
            recLookup xv k = some v ∧ createError 0 k msg .CIRCULAR_REFERENCE ∈ es) ∧
          ((expandVariables v vars sysEnv [k]).circularError = none →
            recLookup xv k = some (expandVariables v vars sysEnv [k]).result) := by
  intro entries
  induction entries with
  | nil =>
    intro _ expanded errs xv es _ k v hl
    simp [recLookup] at hl
  | cons p rest ih =>
    intro hN expanded errs xv es h k v hl
    obtain ⟨k0, v0⟩ := p
    rw [recLookup_cons] at hl
    simp only [expandPass] at h
    cases hb : (k0 == k) with
    | true =>
      have hk0 : k0 = k := by simpa using hb
      rw [if_pos hb] at hl
      injection hl with hl
      subst hl
      subst hk0
      have hnotin : ∀ q ∈ rest, q.1 ≠ k0 := by
        intro q hq he
        rw [List.map_cons, List.nodup_cons] at hN
        exact hN.1 (List.mem_map.mpr ⟨q, hq, he⟩)
      constructor
      · intro msg hC
        rw [hC] at h
        simp only [if_pos rfl] at h
        constructor
        · rw [expandPass_frame vars sysEnv rest _ _ xv es h k0 hnotin]
          exact recLookup_recSet_self expanded k0 _
        · exact expandPass_errs_mem vars sysEnv rest _ _ xv es h _
            (List.mem_append_right _ (List.mem_singleton_self _))
      · intro hC
        rw [hC] at h
        rw [expandPass_frame vars sysEnv rest _ _ xv es h k0 hnotin]
        exact recLookup_recSet_self expanded k0 _
    | false =>
      rw [if_neg (by simp [hb])] at hl
      have hN2 : (rest.map Prod.fst).Nodup := by
        rw [List.map_cons, List.nodup_cons] at hN
        exact hN.2
      cases hC : (expandVariables v0 vars sysEnv [k0]).circularError with
      | some msg =>
        rw [hC] at h
        simp only [if_pos rfl] at h
        exact ih hN2 _ _ xv es h k v hl
      | none =>
        rw [hC] at h
        exact ih hN2 _ _ xv es h k v hl

theorem parseEnvString_acc_structure (content : Str) (ov : Bool) (sysEnv : SysEnv) :
    ∃ (rawVars : Rec) (es1 : List EnvParseError) (buf : Option MultilineBuffer)
      (xv : Rec) (esT : List EnvParseError),
      driveLines true (splitLines (normalizeNewlines content)) 1 [] [] none =
        .ok (rawVars, es1, buf) ∧
      expandPass true rawVars sysEnv rawVars [] (es1 ++ untermErrs buf) = .ok (xv, esT) ∧
      parseEnvString content ⟨ov, true, sysEnv⟩ = .ok ⟨xv, esT, esT.isEmpty⟩ := by
  obtain ⟨⟨v, es1, b⟩, hD⟩ := driveLines_acc_ok (splitLines (normalizeNewlines content)) 1 [] [] none
  obtain ⟨⟨xv, esT⟩, hE⟩ := expandPass_acc_ok v v sysEnv [] (es1 ++ untermErrs b)
  refine ⟨v, es1, b, xv, esT, hD, hE, ?_⟩
  simp only [parseEnvString, hD, bind, Except.bind, pure, Except.pure]
  cases b with
  | none =>
    simp only [untermErrs, List.append_nil] at hE
    simp [hE]
  | some b0 =>
    simp only [untermErrs] at hE
    simp [hE]

/-- C8: circular-reference atomicity in accumulate mode.  Whenever the
expansion of a raw variable detects a circular reference, the result keeps
that variable at its unexpanded raw value and a `CIRCULAR_REFERENCE` error
with the resolver message is in the error list; every variable whose
expansion reports no circular error resolves to its expanded value.  On
`A=${B}`, `B=${A}`, `C=ok` the two cyclic variables keep their raw values,
two circular errors are recorded, and `C` resolves normally. -/
theorem circular_reference_atomicity (content : Str) (ov : Bool) (sysEnv : SysEnv) :
    (∃ (rawVars : Rec) (r : EnvParseResult),
      (∃ es1 buf, driveLines true (splitLines (normalizeNewlines content)) 1 [] [] none =
        .ok (rawVars, es1, buf)) ∧
      parseEnvString content ⟨ov, true, sysEnv⟩ = .ok r ∧
      ∀ k v, recLookup rawVars k = some v →
        (∀ msg, (expandVariables v rawVars sysEnv [k]).circularError = some msg →
          recLookup r.vars k = some v ∧
          createError 0 k msg .CIRCULAR_REFERENCE ∈ r.errors) ∧
        ((expandVariables v rawVars sysEnv [k]).circularError = none →
          recLookup r.vars k = some (expandVariables v rawVars sysEnv [k]).result)) ∧
    parseEnvString ("A=${B}\nB=${A}\nC=ok").data ⟨false, true, []⟩ =
      .ok ⟨[(("A").data, ("${B}").data), (("B").data, ("${A}").data), (("C").data, ("ok").data)],
        [createError 0 ("A").data ("Circular reference detected: A -> B -> A").data
           .CIRCULAR_REFERENCE,
         createError 0 ("B").data ("Circular reference detected: B -> A -> B").data
           .CIRCULAR_REFERENCE],
        false⟩ := by
  constructor
  · obtain ⟨rawVars, es1, buf, xv, esT, hD, hE, hP⟩ :=
      parseEnvString_acc_structure content ov sysEnv
    have hN : (rawVars.map Prod.fst).Nodup :=
      driveLines_nodup _ 1 [] [] none rawVars es1 buf (by simp) hD
    refine ⟨rawVars, ⟨xv, esT, esT.isEmpty⟩, ⟨es1, buf, hD⟩, hP, ?_⟩
    intro k v hl
    exact expandPass_lookup rawVars sysEnv rawVars hN [] (es1 ++ untermErrs buf) xv esT hE k v hl
  · decide

/-- Witness for C8 at the concrete cyclic input: the offending variable keeps
its raw value, its chain error is recorded, and the independent variable
resolves normally. -/
theorem circular_reference_atomicity_witness :
    (match parseEnvString ("A=${B}\nB=${A}\nC=ok").data ⟨false, true, []⟩ with
     | .ok r => recLookup r.vars (("A").data) = some (("${B}").data) ∧
         createError 0 (("A").data) (("Circular reference detected: A -> B -> A").data)
           .CIRCULAR_REFERENCE ∈ r.errors ∧
         recLookup r.vars (("C").data) = some (("ok").data)
     | .error _ => False) := by
  obtain ⟨rawVars, r, ⟨es1, buf, hD⟩, hP, hmain⟩ :=
    (circular_reference_atomicity ("A=${B}\nB=${A}\nC=ok").data false []).1
  rw [hP]
  have hDc : driveLines true (splitLines (normalizeNewlines ("A=${B}\nB=${A}\nC=ok").data))
      1 [] [] none =
      .ok ([(("A").data, ("${B}").data), (("B").data, ("${A}").data), (("C").data, ("ok").data)],
        [], none) := by decide
  rw [hD] at hDc
  injection hDc with hDc
  have hraw : rawVars =
      [(("A").data, ("${B}").data), (("B").data, ("${A}").data), (("C").data, ("ok").data)] :=
    congrArg Prod.fst hDc
  have hA := (hmain (("A").data) (("${B}").data) (by rw [hraw]; decide)).1
    (("Circular reference detected: A -> B -> A").data) (by rw [hraw]; decide)
  have hC := (hmain (("C").data) (("ok").data) (by rw [hraw]; decide)).2 (by rw [hraw]; decide)
  rw [hraw] at hC
  rw [show (expandVariables (("ok").data)
      [(("A").data, ("${B}").data), (("B").data, ("${A}").data), (("C").data, ("ok").data)] []
      [("C").data]).result = (("ok").data) from by decide] at hC
  exact ⟨hA.1, hA.2, hC⟩

theorem headTokenName_not_dollar (c0 : Char) (r : Str) (h : c0 ≠ '$') :
    headTokenName (c0 :: r) = none := by
  cases r with
  | nil => rfl
  | cons c1 r1 =>
    cases r1 with
    | nil => rfl
    | cons c r2 =>
      rw [show headTokenName (c0 :: c1 :: c :: r2) =
        (if (c0 = '$' && c1 = '{' && isIdentStart c) then
          (match r2.dropWhile isIdentChar with
           | '}' :: _ => some (c :: r2.takeWhile isIdentChar)
           | _ => none)
         else none) from rfl]
      rw [if_neg (by simp [h])]

theorem expandScan_no_dollar (vars : Rec) (sysEnv : SysEnv)
    (recurse : Str → List Str → Option ExpandOut) (stack : List Str) (value : Str) :
    ∀ (gas : Nat) (rest res : Str), '$' ∉ rest →
      expandScan vars sysEnv recurse stack value gas rest res = some { result := res } := by
  intro gas
  induction gas with
  | zero => intro rest res _; cases rest <;> rfl
  | succ gas ih =>
    intro rest res h
    cases rest with
    | nil => rfl
    | cons c0 r =>
      have hc : c0 ≠ '$' := fun he => h (he ▸ List.mem_cons_self c0 r)
      simp only [expandScan, headTokenName_not_dollar c0 r hc]
      exact ih r res (fun hm => h (List.mem_cons_of_mem c0 hm))

theorem getSubstitution_no_dollar (m b a : Str) :
    ∀ (repl : Str), '$' ∉ repl → getSubstitution m b a repl = repl := by
  intro repl
  induction repl with
  | nil => intro _; rfl
  | cons c rest ih =>
    intro h
    have hc : c ≠ '$' := fun he => h (he ▸ List.mem_cons_self c rest)
    have hr : getSubstitution m b a rest = rest :=
      ih (fun hm => h (List.mem_cons_of_mem c hm))
    rw [getSubstitution.eq_def]
    simp [hc, hr]

theorem isPrefixOf_self (l : Str) : l.isPrefixOf l = true := by
  induction l with
  | nil => rfl
  | cons c rest ih => simp [List.isPrefixOf, ih]

theorem strFind_self (pat : Str) : strFind pat pat = some 0 := by
  cases pat with
  | nil => rfl
  | cons c rest => simp [strFind, isPrefixOf_self]

theorem jsReplaceFirst_self (pat repl : Str) (hd : '$' ∉ repl) :
    jsReplaceFirst pat pat repl = repl := by
  unfold jsReplaceFirst
  rw [strFind_self]
  simp [List.drop_length, getSubstitution_no_dollar _ _ _ repl hd]

theorem normCRLF_no_cr (s : Str) (h : '\r' ∉ s) : normCRLF s = s := by
  induction s with
  | nil => rfl
  | cons c rest ih =>
    have hc : c ≠ '\r' := fun he => h (he ▸ List.mem_cons_self c rest)
    have hr : '\r' ∉ rest := fun hm => h (List.mem_cons_of_mem c hm)
    cases rest with
    | nil => rfl
    | cons d rest2 =>
      rw [show normCRLF (c :: d :: rest2) =
        (if c = '\r' && d = '\n' then '\n' :: normCRLF rest2
         else c :: normCRLF (d :: rest2)) from rfl]
      rw [if_neg (by simp [hc])]
      rw [ih hr]

theorem normalizeNewlines_no_cr (s : Str) (h : '\r' ∉ s) : normalizeNewlines s = s := by
  unfold normalizeNewlines
  rw [normCRLF_no_cr s h]
  have hpt : ∀ c ∈ s, (if c = '\r' then '\n' else c) = c := by
    intro c hc
    have hne : c ≠ '\r' := by
      intro he
      exact h (he ▸ hc)
    rw [if_neg hne]
  calc s.map (fun c => if c = '\r' then '\n' else c) = s.map (fun c => c) :=
        List.map_congr_left hpt
    _ = s := List.map_id' s

theorem splitLines_ne_nil (s : Str) : splitLines s ≠ [] := by
  cases s with
  | nil => simp [splitLines]
  | cons c rest =>
    unfold splitLines
    by_cases hc : c = '\n'
    · simp [hc]
    · rw [if_neg hc]
      cases splitLines rest <;> simp

theorem splitLines_no_nl (s : Str) (h : '\n' ∉ s) : splitLines s = [s] := by
  induction s with
  | nil => rfl
  | cons c rest ih =>
    have hc : c ≠ '\n' := fun he => h (he ▸ List.mem_cons_self c rest)
    have hr : '\n' ∉ rest := fun hm => h (List.mem_cons_of_mem c hm)
    unfold splitLines
    rw [if_neg hc, ih hr]

theorem splitLines_append (a b : Str) (h : '\n' ∉ a) :
    splitLines (a ++ '\n' :: b) = a :: splitLines b := by
  induction a with
  | nil => simp [splitLines]
  | cons c rest ih =>
    have hc : c ≠ '\n' := fun he => h (he ▸ List.mem_cons_self c rest)
    have hr : '\n' ∉ rest := fun hm => h (List.mem_cons_of_mem c hm)
    rw [List.cons_append]
    rw [show splitLines (c :: (rest ++ '\n' :: b)) =
      (if c = '\n' then [] :: splitLines (rest ++ '\n' :: b)
       else
         (match splitLines (rest ++ '\n' :: b) with
          | l :: ls => (c :: l) :: ls
          | [] => [[c]])) from rfl]
    rw [if_neg hc, ih hr]

theorem idxOf_eq_none (c : Char) (l : Str) (h : c ∉ l) : idxOf c l = none := by
  induction l with
  | nil => rfl
  | cons d rest ih =>
    have hd : d ≠ c := fun he => h (he ▸ List.mem_cons_self d rest)
    have hr : c ∉ rest := fun hm => h (List.mem_cons_of_mem d hm)
    simp [idxOf, hd, ih hr]

theorem jsTrimStart_plain (w : Str) (h : ∀ c ∈ w, isJsWs c = false) : jsTrimStart w = w := by
  cases w with
  | nil => rfl
  | cons c rest =>
    unfold jsTrimStart
    rw [List.dropWhile_cons, if_neg (by rw [h c (List.mem_cons_self c rest)]; simp)]

theorem jsTrimEnd_plain (w : Str) (h : ∀ c ∈ w, isJsWs c = false) : jsTrimEnd w = w := by
  unfold jsTrimEnd
  cases hw : w.reverse with
  | nil =>
    have : w = [] := by simpa using congrArg List.reverse hw
    simp [this]
  | cons c rest =>
    have hcw : c ∈ w := by
      rw [← List.mem_reverse, hw]
      exact List.mem_cons_self c rest
    rw [List.dropWhile_cons, if_neg (by rw [h c hcw]; simp), ← hw, List.reverse_reverse]

theorem jsTrim_plain (w : Str) (h : ∀ c ∈ w, isJsWs c = false) : jsTrim w = w := by
  unfold jsTrim
  rw [jsTrimStart_plain w h, jsTrimEnd_plain w h]

theorem parseLine_keyB_unquoted (w : Str) (n : Nat)
    (hws : ∀ c ∈ w, isJsWs c = false) (hh : '#' ∉ w) (hsq : sq ∉ w) (hdq : '"' ∉ w) :
    parseLine ('B' :: '=' :: w) n none =
      { key := some (['B']), value := some w, isComplete := true, buffer := none } := by
  simp only [parseLine]
  rw [show jsTrimStart ('B' :: '=' :: w) = 'B' :: '=' :: w by
    simp [jsTrimStart, List.dropWhile_cons, show isJsWs ('B') = false from by decide]]
  rw [if_neg (by simp [List.isPrefixOf, show (('#' : Char) == 'B') = false from by decide])]
  rw [if_neg (by simp [List.isPrefixOf, show (('e' : Char) == 'B') = false from by decide])]
  rw [show idxOf '=' ('B' :: '=' :: w) = some 1 by
    simp [idxOf, show (('B' : Char) = '=') = False from by simp]]
  simp only [List.take_succ_cons, List.take_zero, List.drop_succ_cons, List.drop_zero]
  rw [if_neg (by decide : ¬((!keyValid (jsTrim (['B']))) = true))]
  have hfsq : ¬(w.headD (Char.ofNat 0) = sq) := by
    cases w with
    | nil => decide
    | cons c rest =>
      simp only [List.headD_cons]
      intro he
      exact hsq (he ▸ List.mem_cons_self c rest)
  have hfdq : ¬(w.headD (Char.ofNat 0) = '"') := by
    cases w with
    | nil => decide
    | cons c rest =>
      simp only [List.headD_cons]
      intro he
      exact hdq (he ▸ List.mem_cons_self c rest)
  rw [if_neg hfsq, if_neg hfdq]
  rw [jsTrim_plain w hws, idxOf_eq_none '#' w hh,
    show jsTrim (['B']) = (['B']) from by decide]

theorem expandVarsF_no_dollar (vars : Rec) (sysEnv : SysEnv) (fuel : Nat) (w : Str)
    (stack : List Str) (h : '$' ∉ w) :
    expandVarsF vars sysEnv (fuel + 1) w stack = some { result := w } :=
  expandScan_no_dollar vars sysEnv _ stack w w.length w w h

theorem expandVariables_plain (w : Str) (vars : Rec) (sysEnv : SysEnv) (stack : List Str)
    (h : '$' ∉ w) :
    expandVariables w vars sysEnv stack = { result := w } := by
  unfold expandVariables
  rw [expandVarsF_no_dollar vars sysEnv (countFree vars stack) w stack h]
  rfl

theorem expandVarsF_fwd_step (w : Str) (sysEnv : SysEnv) (h : '$' ∉ w) (fuel : Nat) :
    expandVarsF [((['A']), '$' :: '{' :: 'B' :: '}' :: []), ((['B']), w)] sysEnv (fuel + 2)
      ('$' :: '{' :: 'B' :: '}' :: []) [(['A'])] = some { result := w } := by
  have hrec : expandVarsF [((['A']), '$' :: '{' :: 'B' :: '}' :: []), ((['B']), w)] sysEnv
      (fuel + 1) w ([(['A']), (['B'])]) = some { result := w } :=
    expandVarsF_no_dollar _ sysEnv fuel w _ h
  rw [show expandVarsF [((['A']), '$' :: '{' :: 'B' :: '}' :: []), ((['B']), w)] sysEnv
      (fuel + 2) ('$' :: '{' :: 'B' :: '}' :: []) [(['A'])] =
    (match expandVarsF [((['A']), '$' :: '{' :: 'B' :: '}' :: []), ((['B']), w)] sysEnv
        (fuel + 1) w ([(['A']), (['B'])]) with
     | none => none
     | some expanded =>
       match expanded.circularError with
       | some _ => some expanded
       | none =>
         expandScan [((['A']), '$' :: '{' :: 'B' :: '}' :: []), ((['B']), w)] sysEnv
           (fun v ns => expandVarsF [((['A']), '$' :: '{' :: 'B' :: '}' :: []), ((['B']), w)]
             sysEnv (fuel + 1) v ns)
           [(['A'])] ('$' :: '{' :: 'B' :: '}' :: []) 3 []
           (jsReplaceFirst ('$' :: '{' :: 'B' :: '}' :: []) (interpToken (['B']))
             expanded.result)) from rfl]
  rw [hrec]
  show expandScan [((['A']), '$' :: '{' :: 'B' :: '}' :: []), ((['B']), w)] sysEnv
      (fun v ns => expandVarsF [((['A']), '$' :: '{' :: 'B' :: '}' :: []), ((['B']), w)]
        sysEnv (fuel + 1) v ns)
      [(['A'])] ('$' :: '{' :: 'B' :: '}' :: []) 3 []
      (jsReplaceFirst ('$' :: '{' :: 'B' :: '}' :: []) (interpToken (['B'])) w) =
    some { result := w }
  rw [show interpToken (['B']) = '$' :: '{' :: 'B' :: '}' :: [] from rfl,
    jsReplaceFirst_self ('$' :: '{' :: 'B' :: '}' :: []) w h]
  exact expandScan_no_dollar _ sysEnv _ _ _ 3 [] w (by simp)

theorem expandVariables_fwd (w : Str) (sysEnv : SysEnv) (h : '$' ∉ w) :
    expandVariables ('$' :: '{' :: 'B' :: '}' :: [])
      [((['A']), '$' :: '{' :: 'B' :: '}' :: []), ((['B']), w)] sysEnv [(['A'])] =
      { result := w } := by
  unfold expandVariables
  rw [show countFree [((['A']), '$' :: '{' :: 'B' :: '}' :: []), ((['B']), w)] [(['A'])] + 1 =
    0 + 2 from rfl]
  rw [expandVarsF_fwd_step w sysEnv h 0]
  rfl

theorem expandVarsF_ext_step (w2 : Str) (h : '$' ∉ w2) (fuel : Nat) :
    expandVarsF [((['A']), '$' :: '{' :: 'B' :: '}' :: [])] [((['B']), some w2)] (fuel + 1)
      ('$' :: '{' :: 'B' :: '}' :: []) [(['A'])] = some { result := w2 } := by
  rw [show expandVarsF [((['A']), '$' :: '{' :: 'B' :: '}' :: [])] [((['B']), some w2)] (fuel + 1)
      ('$' :: '{' :: 'B' :: '}' :: []) [(['A'])] =
    some { result := jsReplaceFirst ('$' :: '{' :: 'B' :: '}' :: []) (interpToken (['B'])) w2 }
    from rfl]
  rw [show interpToken (['B']) = '$' :: '{' :: 'B' :: '}' :: [] from rfl,
    jsReplaceFirst_self ('$' :: '{' :: 'B' :: '}' :: []) w2 h]

theorem expandVariables_ext (w2 : Str) (h : '$' ∉ w2) :
    expandVariables ('$' :: '{' :: 'B' :: '}' :: []) [((['A']), '$' :: '{' :: 'B' :: '}' :: [])]
      [((['B']), some w2)] [(['A'])] = { result := w2 } := by
  unfold expandVariables
  rw [show countFree [((['A']), '$' :: '{' :: 'B' :: '}' :: [])] [(['A'])] + 1 = 0 + 1 from rfl]
  rw [expandVarsF_ext_step w2 h 0]
  rfl

theorem parseEnvString_fwd (w : Str) (ov : Bool) (sysEnv : SysEnv) (hw : plainValue w) :
    parseEnvString ('A' :: '=' :: '$' :: '{' :: 'B' :: '}' :: '\n' :: 'B' :: '=' :: w)
        ⟨ov, true, sysEnv⟩ =
      .ok ⟨[((['A']), w), ((['B']), w)], [], true⟩ := by
  obtain ⟨hws, hh, hd, hsq, hdq, hnl, hcr⟩ := hw
  have hnr : '\r' ∉ ('A' :: '=' :: '$' :: '{' :: 'B' :: '}' :: '\n' :: 'B' :: '=' :: w) := by
    intro hm
    simp only [List.mem_cons] at hm
    rcases hm with h|h|h|h|h|h|h|h|h|hm
    · exact absurd h (by decide)
    · exact absurd h (by decide)
    · exact absurd h (by decide)
    · exact absurd h (by decide)
    · exact absurd h (by decide)
    · exact absurd h (by decide)
    · exact absurd h (by decide)
    · exact absurd h (by decide)
    · exact absurd h (by decide)
    · exact hcr hm
  have hnl2 : '\n' ∉ ('B' :: '=' :: w) := by
    intro hm
    simp only [List.mem_cons] at hm
    rcases hm with h|h|hm
    · exact absurd h (by decide)
    · exact absurd h (by decide)
    · exact hnl hm
  have hsplit : splitLines ('A' :: '=' :: '$' :: '{' :: 'B' :: '}' :: '\n' :: 'B' :: '=' :: w) =
      [('A' :: '=' :: '$' :: '{' :: 'B' :: '}' :: []), ('B' :: '=' :: w)] := by
    rw [show ('A' :: '=' :: '$' :: '{' :: 'B' :: '}' :: '\n' :: 'B' :: '=' :: w) =
      ('A' :: '=' :: '$' :: '{' :: 'B' :: '}' :: []) ++ '\n' :: ('B' :: '=' :: w) from rfl]
    rw [splitLines_append _ _ (by decide), splitLines_no_nl _ hnl2]
  have hp1 : parseLine ('A' :: '=' :: '$' :: '{' :: 'B' :: '}' :: []) 1 none =
      { key := some (['A']), value := some ('$' :: '{' :: 'B' :: '}' :: []),
        isComplete := true, buffer := none } := by decide
  have hp2 := parseLine_keyB_unquoted w 2 hws hh hsq hdq
  have hdrive : driveLines true
      [('A' :: '=' :: '$' :: '{' :: 'B' :: '}' :: []), ('B' :: '=' :: w)] 1 [] [] none =
      .ok ([((['A']), '$' :: '{' :: 'B' :: '}' :: []), ((['B']), w)], [], none) := by
    simp only [driveLines, hp1, hp2]
    rfl
  have hexp : expandPass true [((['A']), '$' :: '{' :: 'B' :: '}' :: []), ((['B']), w)] sysEnv
      [((['A']), '$' :: '{' :: 'B' :: '}' :: []), ((['B']), w)] [] [] =
      .ok ([((['A']), w), ((['B']), w)], []) := by
    simp only [expandPass, expandVariables_fwd w sysEnv hd,
      expandVariables_plain w _ sysEnv [(['B'])] hd]
    rfl
  simp only [parseEnvString, normalizeNewlines_no_cr _ hnr, hsplit, hdrive, bind, Except.bind,
    pure, Except.pure]
  simp [hexp]

theorem parseEnvString_ext (w2 : Str) (ov : Bool) (hw2 : plainValue w2) :
    parseEnvString ('A' :: '=' :: '$' :: '{' :: 'B' :: '}' :: [])
        ⟨ov, true, [((['B']), some w2)]⟩ =
      .ok ⟨[((['A']), w2)], [], true⟩ := by
  obtain ⟨hws, hh, hd, hsq, hdq, hnl, hcr⟩ := hw2
  have hdrive : driveLines true
      (splitLines (normalizeNewlines ('A' :: '=' :: '$' :: '{' :: 'B' :: '}' :: []))) 1 [] [] none =
      .ok ([((['A']), '$' :: '{' :: 'B' :: '}' :: [])], [], none) := by decide
  have hexp : expandPass true [((['A']), '$' :: '{' :: 'B' :: '}' :: [])] [((['B']), some w2)]
      [((['A']), '$' :: '{' :: 'B' :: '}' :: [])] [] [] =
      .ok ([((['A']), w2)], []) := by
    simp only [expandPass, expandVariables_ext w2 hd]
    rfl
  simp only [parseEnvString, hdrive, bind, Except.bind, pure, Except.pure]
  simp [hexp]

/-- C5: interpolation is a second pass over the completed raw map.  On
`A=${B}` with `B=w` assigned only on a *later* line (a plain unquoted value),
`A` resolves to the fully expanded local `w` under every external snapshot —
in particular under a snapshot that also binds `B` (to `w2`), so the local
definition shadows the external one — while on `A=${B}` alone, with no local
`B`, the external value `w2` is used. -/
theorem interpolation_second_pass (w w2 : Str) (ov : Bool) (sysEnv : SysEnv)
    (hw : plainValue w) (hw2 : plainValue w2) :
    parseEnvString ('A' :: '=' :: '$' :: '{' :: 'B' :: '}' :: '\n' :: 'B' :: '=' :: w)
        ⟨ov, true, sysEnv⟩ =
      .ok ⟨[((['A']), w), ((['B']), w)], [], true⟩ ∧
    parseEnvString ('A' :: '=' :: '$' :: '{' :: 'B' :: '}' :: '\n' :: 'B' :: '=' :: w)
        ⟨ov, true, [((['B']), some w2)]⟩ =
      .ok ⟨[((['A']), w), ((['B']), w)], [], true⟩ ∧
    parseEnvString ('A' :: '=' :: '$' :: '{' :: 'B' :: '}' :: [])
        ⟨ov, true, [((['B']), some w2)]⟩ =
      .ok ⟨[((['A']), w2)], [], true⟩ :=
  ⟨parseEnvString_fwd w ov sysEnv hw,
   parseEnvString_fwd w ov [((['B']), some w2)] hw,
   parseEnvString_ext w2 ov hw2⟩

/-- Witness for C5 at `w = local`, `w2 = ext`: the forward reference resolves
to the local value even when the snapshot binds `B`, and the snapshot value is
used when no local `B` exists. -/
theorem interpolation_second_pass_witness :
    (plainValue (("local").data) ∧ plainValue (("ext").data)) ∧
    parseEnvString ('A' :: '=' :: '$' :: '{' :: 'B' :: '}' :: '\n' :: 'B' :: '=' :: ("local").data)
        ⟨false, true, [((['B']), some (("ext").data))]⟩ =
      .ok ⟨[((['A']), ("local").data), ((['B']), ("local").data)], [], true⟩ ∧
    parseEnvString ('A' :: '=' :: '$' :: '{' :: 'B' :: '}' :: [])
        ⟨false, true, [((['B']), some (("ext").data))]⟩ =
      .ok ⟨[((['A']), ("ext").data)], [], true⟩ :=
  ⟨⟨by unfold plainValue; decide, by unfold plainValue; decide⟩,
   (interpolation_second_pass (("local").data) (("ext").data) false []
     (by unfold plainValue; decide) (by unfold plainValue; decide)).2.1,
   (interpolation_second_pass (("local").data) (("ext").data) false []
     (by unfold plainValue; decide) (by unfold plainValue; decide)).2.2⟩

theorem isPrefixOf_append (l t : Str) : l.isPrefixOf (l ++ t) = true := by
  induction l with
  | nil => simp [List.isPrefixOf]
  | cons c rest ih => simp [List.isPrefixOf, ih]

theorem strFind_at (tkr after : Str) :
    ∀ (p : Str), '$' ∉ p →
      strFind ('$' :: tkr) (p ++ ('$' :: tkr) ++ after) = some p.length := by
  intro p
  induction p with
  | nil =>
    intro _
    simp only [List.nil_append, List.cons_append, strFind]
    rw [if_pos (by simp [List.isPrefixOf, isPrefixOf_append])]
    rfl
  | cons d p2 ih =>
    intro h
    have hd : d ≠ '$' := fun he => h (he ▸ List.mem_cons_self d p2)
    have hp2 : '$' ∉ p2 := fun hm => h (List.mem_cons_of_mem d hm)
    simp only [List.cons_append, strFind]
    rw [if_neg (by simp [List.isPrefixOf]; intro he; exact absurd he.symm hd)]
    simp only [List.append_eq]
    rw [ih hp2]
    simp

theorem jsReplaceFirst_mid (p tkr after repl : Str) (hp : '$' ∉ p) (hr : '$' ∉ repl) :
    jsReplaceFirst (p ++ ('$' :: tkr) ++ after) ('$' :: tkr) repl = p ++ repl ++ after := by
  unfold jsReplaceFirst
  simp only [strFind_at tkr after p hp]
  rw [getSubstitution_no_dollar _ _ _ repl hr]
  rw [List.append_assoc p ('$' :: tkr) after, List.take_left]
  rw [show p.length + ('$' :: tkr).length = (p ++ ('$' :: tkr)).length from
    (List.length_append p ('$' :: tkr)).symm]
  rw [← List.append_assoc p ('$' :: tkr) after, List.drop_left]

theorem headTokenName_decomp (c0 : Char) (r name : Str)
    (hh : headTokenName (c0 :: r) = some name) :
    c0 :: r = ('$' :: '{' :: name ++ [('}')]) ++ (c0 :: r).drop (name.length + 3) := by
  cases r with
  | nil => exact absurd hh (by simp [headTokenName])
  | cons c1 r1 =>
    cases r1 with
    | nil => exact absurd hh (by simp [headTokenName])
    | cons c r2 =>
      rw [show headTokenName (c0 :: c1 :: c :: r2) =
        (if (c0 = '$' && c1 = '{' && isIdentStart c) then
          (match r2.dropWhile isIdentChar with
           | '}' :: _ => some (c :: r2.takeWhile isIdentChar)
           | _ => none)
         else none) from rfl] at hh
      by_cases hcond : (c0 = '$' && c1 = '{' && isIdentStart c) = true
      · rw [if_pos hcond] at hh
        simp only [Bool.and_eq_true, decide_eq_true_eq] at hcond
        obtain ⟨⟨hc0, hc1⟩, _⟩ := hcond
        subst hc0
        subst hc1
        split at hh
        · rename_i rest2 heq
          injection hh with hh
          subst hh
          have hr2 : r2 = r2.takeWhile isIdentChar ++ ('}' :: rest2) := by
            rw [← heq, List.takeWhile_append_dropWhile]
          have hsplitS : ('$' : Char) :: '{' :: c :: r2 =
              ('$' :: '{' :: c :: (r2.takeWhile isIdentChar ++ [('}')])) ++ rest2 := by
            conv_lhs => rw [hr2]
            simp
          have hlen4 : (c :: r2.takeWhile isIdentChar).length + 3 =
              ('$' :: '{' :: c :: (r2.takeWhile isIdentChar ++ [('}')])).length := by
            simp [List.length_cons, List.length_append]
          have hE : (('$' : Char) :: '{' :: c :: r2).drop
              ((c :: r2.takeWhile isIdentChar).length + 3) = rest2 := by
            conv_lhs => rw [hsplitS, hlen4]
            exact List.drop_left _ _
          rw [hE]
          conv_lhs => rw [hsplitS]
          simp
        · rename_i hne
          exact absurd hh (by simp)
      · rw [if_neg hcond] at hh
        exact absurd hh (by simp)

theorem drop_token_length_le (c0 : Char) (r name : Str) :
    ((c0 :: r).drop (name.length + 3)).length ≤ r.length := by
  rw [List.length_drop]
  simp only [List.length_cons]
  omega

theorem wfTokensGas_congr :
    ∀ (g1 : Nat) (s : Str) (g2 : Nat), s.length ≤ g1 → s.length ≤ g2 →
      wfTokensGas g1 s = wfTokensGas g2 s := by
  intro g1
  induction g1 with
  | zero =>
    intro s g2 h1 _
    have : s = [] := List.eq_nil_of_length_eq_zero (Nat.le_zero.mp h1)
    subst this
    cases g2 <;> rfl
  | succ g1 ih =>
    intro s g2 h1 h2
    cases s with
    | nil => cases g2 <;> rfl
    | cons c0 r =>
      cases g2 with
      | zero => exact absurd h2 (by simp)
      | succ g2 =>
        simp only [wfTokensGas]
        cases hh : headTokenName (c0 :: r) with
        | some name =>
          have hlen : ((c0 :: r).drop (name.length + 3)).length ≤ r.length :=
            drop_token_length_le c0 r name
          have hr1 : r.length ≤ g1 := by simpa using h1
          have hr2 : r.length ≤ g2 := by simpa using h2
          exact ih _ g2 (le_trans hlen hr1) (le_trans hlen hr2)
        | none =>
          by_cases hc : c0 = '$'
          · simp [hc]
          · rw [if_neg hc, if_neg hc]
            have hr1 : r.length ≤ g1 := by simpa using h1
            have hr2 : r.length ≤ g2 := by simpa using h2
            exact ih r g2 hr1 hr2

theorem wfTokens_cons_nontoken (c0 : Char) (r : Str) (h : wfTokens (c0 :: r) = true)
    (hh : headTokenName (c0 :: r) = none) : c0 ≠ '$' ∧ wfTokens r = true := by
  unfold wfTokens at h
  rw [List.length_cons] at h
  simp only [wfTokensGas, hh] at h
  by_cases hc : c0 = '$'
  · rw [if_pos hc] at h
    exact absurd h (by simp)
  · rw [if_neg hc] at h
    exact ⟨hc, h⟩

theorem wfTokens_token_drop (c0 : Char) (r name : Str)
    (h : wfTokens (c0 :: r) = true) (hh : headTokenName (c0 :: r) = some name) :
    wfTokens ((c0 :: r).drop (name.length + 3)) = true := by
  unfold wfTokens at h ⊢
  rw [List.length_cons] at h
  simp only [wfTokensGas, hh] at h
  rw [wfTokensGas_congr r.length ((c0 :: r).drop (name.length + 3))
    ((c0 :: r).drop (name.length + 3)).length (drop_token_length_le c0 r name) (le_refl _)] at h
  exact h

theorem recLookup_mem (r : Rec) (k v : Str) (h : recLookup r k = some v) : (k, v) ∈ r := by
  unfold recLookup at h
  cases hf : r.find? (fun p => p.1 == k) with
  | none => rw [hf] at h; exact absurd h (by simp)
  | some q =>
    rw [hf] at h
    have hm := List.mem_of_find?_eq_some hf
    have hk := List.find?_some hf
    obtain ⟨q1, q2⟩ := q
    simp only [Option.map] at h
    injection h with h
    simp only [beq_iff_eq] at hk
    subst hk
    subst h
    exact hm

theorem sysLookup_mem (e : SysEnv) (k v : Str) (h : sysLookup e k = some v) :
    ∃ q ∈ e, q.2 = some v := by
  unfold sysLookup at h
  cases hf : e.find? (fun p => p.1 == k) with
  | none => rw [hf] at h; exact absurd h (by simp)
  | some q =>
    rw [hf] at h
    have hm := List.mem_of_find?_eq_some hf
    obtain ⟨q1, oq⟩ := q
    cases oq with
    | none => exact absurd h (by simp)
    | some v0 =>
      simp only [] at h
      injection h with h
      exact ⟨(q1, some v0), hm, by rw [h]⟩

theorem findInterp_no_dollar (v : Str) (h : '$' ∉ v) : findInterp v = none := by
  induction v with
  | nil => rfl
  | cons c0 r ih =>
    have hc : c0 ≠ '$' := fun he => h (he ▸ List.mem_cons_self c0 r)
    simp only [findInterp, headTokenName_not_dollar c0 r hc]
    exact ih (fun hm => h (List.mem_cons_of_mem c0 hm))

theorem expandScan_no_unresolved (vars : Rec) (sysEnv : SysEnv)
    (recurse : Str → List Str → Option ExpandOut) (stack : List Str) (value : Str)
    (hsys : ∀ q ∈ sysEnv, ∀ v, q.2 = some v → '$' ∉ v)
    (hvars : ∀ q ∈ vars, wfTokens q.2 = true)
    (hrec : ∀ v ns out2, wfTokens v = true → recurse v ns = some out2 →
      out2.circularError = none → '$' ∉ out2.result) :
    ∀ (gas : Nat) (rest res pre : Str), res = pre ++ rest → '$' ∉ pre →
      wfTokens rest = true → rest.length ≤ gas →
      ∀ out, expandScan vars sysEnv recurse stack value gas rest res = some out →
        out.circularError = none → '$' ∉ out.result := by
  intro gas
  induction gas with
  | zero =>
    intro rest res pre hres hpre _ hlen out h _
    have hnil : rest = [] := List.eq_nil_of_length_eq_zero (Nat.le_zero.mp hlen)
    subst hnil
    simp only [expandScan] at h
    injection h with h
    subst h
    simpa [hres] using hpre
  | succ gas ih =>
    intro rest res pre hres hpre hwf hlen out h hce
    cases rest with
    | nil =>
      simp only [expandScan] at h
      injection h with h
      subst h
      simpa [hres] using hpre
    | cons c0 r =>
      simp only [expandScan] at h
      cases htok : headTokenName (c0 :: r) with
      | none =>
        simp only [htok] at h
        obtain ⟨hc0, hwfr⟩ := wfTokens_cons_nontoken c0 r hwf htok
        refine ih r res (pre ++ [c0]) (by rw [hres]; simp) ?_ hwfr ?_ out h hce
        · intro hm
          rcases List.mem_append.mp hm with hm | hm
          · exact hpre hm
          · have hmc : '$' = c0 := by simpa using hm
            exact hc0 hmc.symm
        · exact Nat.le_of_succ_le_succ (by simpa using hlen)
      | some name =>
        simp only [htok] at h
        have hdec := headTokenName_decomp c0 r name htok
        have hwfafter := wfTokens_token_drop c0 r name hwf htok
        have hlenafter := drop_token_length_le c0 r name
        have hrlen : r.length ≤ gas := Nat.le_of_succ_le_succ (by simpa using hlen)
        generalize hafter : (c0 :: r).drop (name.length + 3) = after at h hdec hwfafter hlenafter
        cases hcirc : detectCircularReference name stack with
        | some msg =>
          simp only [hcirc] at h
          injection h with h
          subst h
          simp at hce
        | none =>
          simp only [hcirc] at h
          cases hlook : recLookup vars name with
          | some v =>
            simp only [hlook] at h
            cases hx : recurse v (stack ++ [name]) with
            | none => rw [hx] at h; exact absurd h (by simp)
            | some expanded =>
              rw [hx] at h
              cases hcex : expanded.circularError with
              | some msg2 =>
                simp only [hcex] at h
                injection h with h
                subst h
                rw [hce] at hcex
                exact absurd hcex (by simp)
              | none =>
                simp only [hcex] at h
                have hv : wfTokens v = true :=
                  hvars (name, v) (recLookup_mem vars name v hlook)
                have hrepl : '$' ∉ expanded.result := hrec v _ expanded hv hx hcex
                have hstep : jsReplaceFirst res (interpToken name) expanded.result =
                    (pre ++ expanded.result) ++ after := by
                  rw [hres, hdec]
                  rw [show interpToken name = '$' :: ('{' :: name ++ [('}')]) from rfl]
                  rw [← List.append_assoc]
                  exact jsReplaceFirst_mid pre ('{' :: name ++ [('}')]) after
                    expanded.result hpre hrepl
                rw [hstep] at h
                refine ih after _ (pre ++ expanded.result) rfl ?_ hwfafter
                  (le_trans hlenafter hrlen) out h hce
                intro hm
                rcases List.mem_append.mp hm with hm | hm
                · exact hpre hm
                · exact hrepl hm
          | none =>
            cases hsl : sysLookup sysEnv name with
            | some v =>
              simp only [hlook, hsl] at h
              have hrepl : '$' ∉ v := by
                obtain ⟨q, hq, hqv⟩ := sysLookup_mem sysEnv name v hsl
                exact hsys q hq v hqv
              have hstep : jsReplaceFirst res (interpToken name) v =
                  (pre ++ v) ++ after := by
                rw [hres, hdec]
                rw [show interpToken name = '$' :: ('{' :: name ++ [('}')]) from rfl]
                rw [← List.append_assoc]
                exact jsReplaceFirst_mid pre ('{' :: name ++ [('}')]) after v hpre hrepl
              rw [hstep] at h
              refine ih after _ (pre ++ v) rfl ?_ hwfafter (le_trans hlenafter hrlen) out h hce
              intro hm
              rcases List.mem_append.mp hm with hm | hm
              · exact hpre hm
              · exact hrepl hm
            | none =>
              simp only [hlook, hsl] at h
              have hstep : jsReplaceFirst res (interpToken name) [] =
                  (pre ++ ([] : Str)) ++ after := by
                rw [hres, hdec]
                rw [show interpToken name = '$' :: ('{' :: name ++ [('}')]) from rfl]
                rw [← List.append_assoc]
                exact jsReplaceFirst_mid pre ('{' :: name ++ [('}')]) after [] hpre
                  (by simp)
              rw [hstep] at h
              refine ih after _ (pre ++ ([] : Str)) rfl ?_ hwfafter
                (le_trans hlenafter hrlen) out h hce
              intro hm
              rcases List.mem_append.mp hm with hm | hm
              · exact hpre hm
              · exact absurd hm (List.not_mem_nil _)

theorem expandVarsF_no_unresolved (vars : Rec) (sysEnv : SysEnv)
    (hsys : ∀ q ∈ sysEnv, ∀ v, q.2 = some v → '$' ∉ v)
    (hvars : ∀ q ∈ vars, wfTokens q.2 = true) :
    ∀ (fuel : Nat) (value : Str) (stack : List Str) (out : ExpandOut),
      wfTokens value = true →
      expandVarsF vars sysEnv fuel value stack = some out →
      out.circularError = none → '$' ∉ out.result := by
  intro fuel
  induction fuel with
  | zero =>
    intro value stack out _ h
    exact absurd h (by simp [expandVarsF])
  | succ fuel ih =>
    intro value stack out hwf h hce
    simp only [expandVarsF] at h
    exact expandScan_no_unresolved vars sysEnv _ stack value hsys hvars
      (fun v ns out2 hwf2 h2 hce2 => ih v ns out2 hwf2 h2 hce2)
      value.length value value [] rfl (by simp) hwf (le_refl _) out h hce

theorem expandVariables_no_unresolved (value : Str) (vars : Rec) (sysEnv : SysEnv)
    (stack : List Str)
    (hsys : ∀ q ∈ sysEnv, ∀ v, q.2 = some v → '$' ∉ v)
    (hvars : ∀ q ∈ vars, wfTokens q.2 = true)
    (hwf : wfTokens value = true)
    (hce : (expandVariables value vars sysEnv stack).circularError = none) :
    '$' ∉ (expandVariables value vars sysEnv stack).result :=
  expandVarsF_no_unresolved vars sysEnv hsys hvars (countFree vars stack + 1) value stack
    (expandVariables value vars sysEnv stack) hwf (expandVariables_some value vars sysEnv stack)
    hce

theorem expandPass_keys (vars : Rec) (sysEnv : SysEnv) :
    ∀ (entries expanded : Rec) (errs : List EnvParseError) (xv : Rec)
      (es : List EnvParseError),
      expandPass true vars sysEnv entries expanded errs = .ok (xv, es) →
      ∀ k, recLookup xv k ≠ none →
        recLookup entries k ≠ none ∨ recLookup expanded k ≠ none := by
  intro entries
  induction entries with
  | nil =>
    intro expanded errs xv es h k hk
    simp only [expandPass] at h
    injection h with h
    injection h with h1 h2
    subst h1
    exact Or.inr hk
  | cons p rest ih =>
    intro expanded errs xv es h k hk
    obtain ⟨k0, v0⟩ := p
    simp only [expandPass] at h
    have hnext : ∀ (x : Str),
        (recLookup rest k ≠ none ∨ recLookup (recSet expanded k0 x) k ≠ none) →
        recLookup ((k0, v0) :: rest) k ≠ none ∨ recLookup expanded k ≠ none := by
      intro x hx
      rcases hx with hl | hl
      · left
        rw [recLookup_cons]
        cases hb : ((k0, v0).1 == k) with
        | true => simp
        | false =>
          rw [if_neg (by simp [hb])]
          exact hl
      · by_cases hkk : k = k0
        · subst hkk
          left
          rw [recLookup_cons]
          simp
        · right
          rw [recLookup_recSet_other expanded k0 x k hkk] at hl
          exact hl
    cases hC : (expandVariables v0 vars sysEnv [k0]).circularError with
    | some msg =>
      rw [hC] at h
      exact hnext v0 (ih _ _ xv es h k hk)
    | none =>
      rw [hC] at h
      exact hnext (expandVariables v0 vars sysEnv [k0]).result (ih _ _ xv es h k hk)

/-- C4 counterexample: with an external snapshot binding `X` to the literal
text `${Y}`, parsing `A=${X}` reports success yet stores for `A` the value
`${Y}` — a complete, well-formed interpolation token whose name is defined
neither locally nor externally.  External values are pasted verbatim and never
re-scanned, so the claimed invariant fails without further hypotheses. -/
theorem unresolved_token_counterexample :
    parseEnvString (("A=${X}").data) ⟨false, true, [(("X").data, some (("${Y}").data))]⟩ =
      .ok ⟨[(("A").data, ("${Y}").data)], [], true⟩ ∧
    findInterp (("${Y}").data) = some ((("Y").data), []) ∧
    recLookup [(("A").data, ("${Y}").data)] (("Y").data) = none ∧
    sysLookup [(("X").data, some (("${Y}").data))] (("Y").data) = none := by
  refine ⟨by decide, by decide, by decide, by decide⟩

/-- C4 amended: the expanded map carries no unresolved token provided the
referenced material is hygienic — every defined external value is free of `$`
and every raw local value is a well-formed token string (`wfTokens`).  Under
those hypotheses, whenever `parseEnvString` reports success every value of the
result map contains no `$` at all, hence no `${IDENTIFIER}` token
(`findInterp` finds nothing).  Unconditionally, a `${NAME}` whose `NAME` is
defined nowhere is replaced by the empty string, as on `A=${X}` with an empty
snapshot. -/
theorem no_unresolved_token_invariant (content : Str) (ov : Bool) (sysEnv : SysEnv)
    (hsys : ∀ q ∈ sysEnv, ∀ v, q.2 = some v → '$' ∉ v) :
    (∀ (rawVars : Rec) (es1 : List EnvParseError) (buf : Option MultilineBuffer)
        (r : EnvParseResult),
      driveLines true (splitLines (normalizeNewlines content)) 1 [] [] none =
        .ok (rawVars, es1, buf) →
      (∀ q ∈ rawVars, wfTokens q.2 = true) →
      parseEnvString content ⟨ov, true, sysEnv⟩ = .ok r →
      r.success = true →
      ∀ k v, recLookup r.vars k = some v → '$' ∉ v ∧ findInterp v = none) ∧
    parseEnvString (("A=${X}").data) ⟨ov, true, []⟩ =
      .ok ⟨[(("A").data, [])], [], true⟩ := by
  constructor
  · intro rawVars es1 buf r hD hwfs hP hsucc k v hlk
    obtain ⟨rawVars2, es12, buf2, xv, esT, hD2, hE, hP2⟩ :=
      parseEnvString_acc_structure content ov sysEnv
    rw [hD2] at hD
    injection hD with hD
    injection hD with ha hb
    rw [ha] at hD2 hE
    rw [hP] at hP2
    injection hP2 with hP2
    subst hP2
    simp only [] at hsucc hlk
    have hesT : esT = [] := by
      cases esT with
      | nil => rfl
      | cons e es => exact absurd hsucc (by simp)
    have hN : (rawVars.map Prod.fst).Nodup :=
      driveLines_nodup _ 1 [] [] none rawVars es12 buf2 (by simp) hD2
    have hkeys := expandPass_keys rawVars sysEnv rawVars [] (es12 ++ untermErrs buf2) xv esT hE
      k (by rw [hlk]; simp)
    rcases hkeys with hk1 | hk2
    · cases hv0 : recLookup rawVars k with
      | none => exact absurd hv0 hk1
      | some v0 =>
        have hl := expandPass_lookup rawVars sysEnv rawVars hN [] (es12 ++ untermErrs buf2)
          xv esT hE k v0 hv0
        cases hC : (expandVariables v0 rawVars sysEnv [k]).circularError with
        | some msg =>
          have hmem := (hl.1 msg hC).2
          rw [hesT] at hmem
          exact absurd hmem (List.not_mem_nil _)
        | none =>
          have hres := hl.2 hC
          rw [hlk] at hres
          injection hres with hres
          have hwfv0 : wfTokens v0 = true := by
            have := hwfs (k, v0) (recLookup_mem rawVars k v0 hv0)
            simpa using this
          have hnd := expandVariables_no_unresolved v0 rawVars sysEnv [k] hsys hwfs hwfv0 hC
          rw [← hres] at hnd
          exact ⟨hnd, findInterp_no_dollar v hnd⟩
    · exact absurd rfl hk2
  · rfl

/-- Witness for the amended C4 at `A=${B}` with `B=w` local and an empty
snapshot: all hygiene hypotheses hold and the expanded value of `A` contains
no `$` and no token. -/
theorem no_unresolved_token_invariant_witness :
    (∀ q ∈ ([] : SysEnv), ∀ v, q.2 = some v → '$' ∉ v) ∧
    ('$' ∉ (("w").data) ∧ findInterp (("w").data) = none) :=
  ⟨by simp,
   (no_unresolved_token_invariant (("A=${B}" ++ "\n" ++ "B=w").data) false [] (by simp)).1
     [(("A").data, ("${B}").data), (("B").data, ("w").data)] [] none
     ⟨[(("A").data, ("w").data), (("B").data, ("w").data)], [], true⟩
     (by decide) (by decide) (by decide) rfl (("A").data) (("w").data) (by decide)⟩

end EnvParser
